import Mathlib

/-!
Verification of the mapchete configuration resolution engine
(src/mapchete/config/__init__.py) against its specification.

The Python code is shallowly embedded:
* Python values occurring in configuration documents (strings, ints, None,
  nested dicts) are modelled by the mutually inductive `PTree`/`PList`
  (`PList` is an insertion-ordered association list, the model of a Python
  dict: keys are unique, iteration follows insertion order, assigning to an
  existing key keeps its position).
* Python exceptions are modelled by `Except PyErr`.
* `str.strip`, `str.split`, `str.startswith`, `int(...)` and `json.dumps`
  are modelled character-exactly on `List Char`.
-/

/-- Scalar (non-dict) Python values appearing in configuration documents.
`null` models Python `None`. -/
inductive JAtom where
  | str (s : String)
  | int (n : Int)
  | null
deriving DecidableEq

mutual
/-- A Python value: either a scalar or a dict. `V` is the scalar type
(`JAtom` for configuration documents, `Option Handle` for snapshots whose
leaves are input handles or `None`). -/
inductive PTree (V : Type) where
  | val (v : V)
  | dict (entries : PList V)

/-- Entries of a Python dict, in insertion order. -/
inductive PList (V : Type) where
  | nil
  | cons (key : String) (value : PTree V) (rest : PList V)
end

mutual
def ptreeDecEq {V : Type} [DecidableEq V] : (a b : PTree V) → Decidable (a = b)
  | .val v, .val w =>
    match decEq v w with
    | isTrue h => isTrue (by rw [h])
    | isFalse h => isFalse (by intro hc; injection hc; contradiction)
  | .val _, .dict _ => isFalse (by intro hc; exact PTree.noConfusion hc)
  | .dict _, .val _ => isFalse (by intro hc; exact PTree.noConfusion hc)
  | .dict d, .dict e =>
    match plistDecEq d e with
    | isTrue h => isTrue (by rw [h])
    | isFalse h => isFalse (by intro hc; injection hc; contradiction)

def plistDecEq {V : Type} [DecidableEq V] : (a b : PList V) → Decidable (a = b)
  | .nil, .nil => isTrue rfl
  | .nil, .cons _ _ _ => isFalse (by intro hc; exact PList.noConfusion hc)
  | .cons _ _ _, .nil => isFalse (by intro hc; exact PList.noConfusion hc)
  | .cons k v r, .cons k2 v2 r2 =>
    match decEq k k2, ptreeDecEq v v2, plistDecEq r r2 with
    | isTrue h1, isTrue h2, isTrue h3 => isTrue (by rw [h1, h2, h3])
    | isFalse h1, _, _ => isFalse (by intro hc; injection hc; contradiction)
    | _, isFalse h2, _ => isFalse (by intro hc; injection hc; contradiction)
    | _, _, isFalse h3 => isFalse (by intro hc; injection hc; contradiction)
end

instance {V : Type} [DecidableEq V] : DecidableEq (PTree V) := ptreeDecEq

instance {V : Type} [DecidableEq V] : DecidableEq (PList V) := plistDecEq

/-- Configuration document values. -/
abbrev JValue := PTree JAtom

/-- Python exceptions relevant to the embedded code.  `configError` is
`MapcheteConfigError`, `driverError` is `MapcheteDriverError`; the rest are
builtin exception kinds. -/
inductive PyErr where
  | configError
  | driverError
  | valueError
  | keyError
  | typeError
deriving DecidableEq

instance {ε α : Type} [DecidableEq ε] [DecidableEq α] : DecidableEq (Except ε α) :=
  fun a b =>
    match a, b with
    | .ok x, .ok y =>
      match decEq x y with
      | isTrue h => isTrue (by rw [h])
      | isFalse h => isFalse (by intro hc; injection hc; contradiction)
    | .error x, .error y =>
      match decEq x y with
      | isTrue h => isTrue (by rw [h])
      | isFalse h => isFalse (by intro hc; injection hc; contradiction)
    | .ok _, .error _ => isFalse (by intro hc; exact Except.noConfusion hc)
    | .error _, .ok _ => isFalse (by intro hc; exact Except.noConfusion hc)

/-- `key in d` for a Python dict. -/
def hasKey {V : Type} : PList V → String → Bool
  | .nil, _ => false
  | .cons k _ rest, key => k = key || hasKey rest key

/-- `d[key]` lookup (first — i.e. unique — binding of `key`). -/
def lookupP {V : Type} : PList V → String → Option (PTree V)
  | .nil, _ => none
  | .cons k v rest, key => if k = key then some v else lookupP rest key

/-- `d[key] = v`: replace in place if the key exists (keeping its position),
append otherwise — Python dict assignment semantics. -/
def setKeyP {V : Type} : PList V → String → PTree V → PList V
  | .nil, key, v => .cons key v .nil
  | .cons k w rest, key, v =>
    if k = key then .cons key v rest else .cons k w (setKeyP rest key v)

/-- `cur.update(upd)` for Python dicts: assign every entry of `upd` into
`cur`, in `upd`'s iteration order. -/
def pyUpdateP {V : Type} : PList V → PList V → PList V
  | cur, .nil => cur
  | cur, .cons k v rest => pyUpdateP (setKeyP cur k v) rest

/-- Concatenation of entry lists (used in specifications/proofs only). -/
def pAppend {V : Type} : PList V → PList V → PList V
  | .nil, b => b
  | .cons k v rest, b => .cons k v (pAppend rest b)

/-- Number of entries, `len(d)`. -/
def pLen {V : Type} : PList V → Nat
  | .nil => 0
  | .cons _ _ rest => pLen rest + 1

/-- Keys of a dict in iteration order. -/
def keysOfP {V : Type} : PList V → List String
  | .nil => []
  | .cons k _ rest => k :: keysOfP rest

/-- First value of a dict (`next(six.itervalues(d))`), with a default for
the empty dict (only used where the dict is known non-empty). -/
def firstValP {V : Type} (default : PTree V) : PList V → PTree V
  | .nil => default
  | .cons _ v _ => v

/-- Entry list turned into a dict assuming the keys are fresh (plain
conversion, used in specifications/proofs only). -/
def ofListP {V : Type} : List (String × PTree V) → PList V
  | [] => .nil
  | (k, v) :: rest => .cons k v (ofListP rest)

/-- `dict(pairs)` for a list of key/value pairs: later bindings of a key
overwrite earlier ones in place. -/
def dictOfP {V : Type} (l : List (String × PTree V)) : PList V :=
  l.foldl (fun acc kv => setKeyP acc kv.1 kv.2) .nil

/-- Association-list assignment for plain Lean lists (used for Python dicts
whose keys are not strings, e.g. the registry keyed by hashes and the
per-zoom caches). Same semantics as `setKeyP`. -/
def setKeyL {α β : Type} [DecidableEq α] : List (α × β) → α → β → List (α × β)
  | [], key, v => [(key, v)]
  | (k, w) :: rest, key, v =>
    if k = key then (key, v) :: rest else (k, w) :: setKeyL rest key v

/-- Association-list lookup for plain Lean lists. -/
def lookupL {α β : Type} [DecidableEq α] : List (α × β) → α → Option β
  | [], _ => none
  | (k, v) :: rest, key => if k = key then some v else lookupL rest key

/-- Association-list key membership for plain Lean lists. -/
def hasKeyL {α β : Type} [DecidableEq α] : List (α × β) → α → Bool
  | [], _ => false
  | (k, _) :: rest, key => k = key || hasKeyL rest key

/-! ### Python string primitives, character-exact -/

/-- Strip characters satisfying `p` from both ends of a character list
(Python `str.strip`). -/
def pyStripBoth (p : Char → Bool) (l : List Char) : List Char :=
  ((l.dropWhile p).reverse.dropWhile p).reverse

/-- Python `s.strip(chars)`: strips every character contained in `chars`
from both ends (a character set, not a substring). -/
def pyStripChars (s : String) (cs : List Char) : String :=
  String.mk (pyStripBoth (fun c => cs.contains c) s.data)

/-- Python whitespace for `str.strip()` / `int()` (ASCII fragment). -/
def wsChar (c : Char) : Bool :=
  c = ' ' || c = '\t' || c = '\n' || c = '\x0d' ||
    c = Char.ofNat 11 || c = Char.ofNat 12

/-- Python `s.strip()`. -/
def pyStripWS (s : String) : String :=
  String.mk (pyStripBoth wsChar s.data)

/-- Python `s.startswith(pre)`. -/
def pyStartsWith (s pre : String) : Bool :=
  pre.data.isPrefixOf s.data

/-- Decimal digit run parser: `none` on an empty or non-digit run. -/
def parseDigitsGo : List Char → Nat → Option Nat
  | [], acc => some acc
  | c :: r, acc =>
    if '0' ≤ c ∧ c ≤ '9' then parseDigitsGo r (acc * 10 + (c.toNat - 48))
    else none

def parseDigits : List Char → Option Nat
  | [] => none
  | l => parseDigitsGo l 0

/-- Python `int(s)`: optional surrounding whitespace, optional sign, at
least one decimal digit. -/
def pyParseInt (s : String) : Option Int :=
  match pyStripBoth wsChar s.data with
  | '+' :: r => (parseDigits r).map Int.ofNat
  | '-' :: r => (parseDigits r).map (fun n => -(Int.ofNat n))
  | r => (parseDigits r).map Int.ofNat

/-- Split a character list on `'/'` (Python `str.split("/")`: no collapsing
of empty pieces, `[""]` for the empty string). -/
def splitSlashChars : List Char → List (List Char)
  | [] => [[]]
  | c :: r =>
    if c = '/' then [] :: splitSlashChars r
    else
      match splitSlashChars r with
      | [] => [[c]]
      | h :: t => (c :: h) :: t

/-- Python `key.split("/")`. -/
def pySplitSlash (s : String) : List String :=
  (splitSlashChars s.data).map String.mk

/-- Python `"/".join(l)`. -/
def joinSlash : List String → String
  | [] => ""
  | [s] => s
  | s :: rest => s ++ "/" ++ joinSlash rest


/-! ### `_flatten_tree` (src/mapchete/config/__init__.py lines 713-722)

Flattens a dict tree into a list of `(slash-joined path, value)` pairs.
A sub-dict is flattened further unless it carries the `"format"` leaf
marker, in which case the whole sub-dict is the value at that path. -/

mutual
def flattenList {V : Type} (tree : PList V) (old_path : Option String) :
    List (String × PTree V) :=
  match tree with
  | .nil => []
  | .cons key value rest =>
    -- new_path = "/".join([old_path, key]) if old_path else key
    let new_path := match old_path with
      | some p => if p ≠ "" then p ++ "/" ++ key else key
      | none => key
    flattenVal value new_path ++ flattenList rest old_path

def flattenVal {V : Type} (value : PTree V) (new_path : String) :
    List (String × PTree V) :=
  match value with
  | .dict sub =>
    if hasKey sub "format" then [(new_path, PTree.dict sub)]
    else flattenList sub (some new_path)
  | .val v => [(new_path, PTree.val v)]
end

/-- `_flatten_tree(tree)` with the default `old_path=None`. -/
def flatten_tree {V : Type} (tree : PList V) : List (String × PTree V) :=
  flattenList tree none

/-! ### `_unflatten_tree` (src/mapchete/config/__init__.py lines 725-745)

One loop iteration of `_unflatten_tree` for the entry `key ↦ value`, on the
already split path.  The source recursively calls
`_unflatten_tree({"/".join(path[1:]): value})`, which immediately re-splits
the joined tail; since the segments produced by `split("/")` contain no
`"/"`, join-then-split is the identity on them (`splitSlash_joinSlash`
below), so the recursion is modelled directly on the segment list.
`none` models the exceptions the source raises when a traversed node is not
a dict (`TypeError`/`AttributeError` from indexing / `.update`). -/
def insertSegs {V : Type} : PList V → List String → PTree V → Option (PList V)
  | _, [], _ => none        -- unreachable: str.split never returns an empty list
  | tree, [k], value => some (setKeyP tree k value)
  | tree, p0 :: p1 :: rest, value =>
    -- branch = _unflatten_tree({"/".join(path[1:]): value})
    match insertSegs .nil (p1 :: rest) value with
    | none => none
    | some branch =>
      match lookupP tree p0 with
      | none => some (setKeyP tree p0 (.dict branch))       -- tree[path[0]] = branch
      | some t0 =>
        match t0 with
        | .dict d0 =>
          match lookupP branch p1 with
          | none => none                                    -- unreachable
          | some bv =>
            if hasKey d0 p1 then
              -- tree[path[0]][path[1]].update(branch[path[1]])
              match lookupP d0 p1, bv with
              | some (.dict cur), .dict bvd =>
                some (setKeyP tree p0 (.dict (setKeyP d0 p1 (.dict (pyUpdateP cur bvd)))))
              | _, _ => none   -- .update on / with a non-dict raises
            else
              -- tree[path[0]][path[1]] = branch[path[1]]
              some (setKeyP tree p0 (.dict (setKeyP d0 p1 bv)))
        | _ => none            -- tree[path[0]] is not a dict: indexing raises

/-- The loop of `_unflatten_tree` over the flat dict's entries. -/
def unflattenFold {V : Type} : PList V → PList V → Option (PList V)
  | tree, .nil => some tree
  | tree, .cons k v rest =>
    match insertSegs tree (pySplitSlash k) v with
    | none => none
    | some t2 => unflattenFold t2 rest

/-- `_unflatten_tree(flat)`. -/
def unflatten_tree {V : Type} (flat : PList V) : Option (PList V) :=
  unflattenFold .nil flat


/-- One loop iteration list of `_unflatten_tree`, as a Lean-list fold (the
same computation as `unflattenFold`, used to relate it to the flat pair
list). -/
def processPairs {V : Type} : PList V → List (String × PTree V) → Option (PList V)
  | tree, [] => some tree
  | tree, (k, v) :: rest =>
    match insertSegs tree (pySplitSlash k) v with
    | none => none
    | some t2 => processPairs t2 rest

def pathFreshB {V : Type} : List (String × PTree V) → Bool
  | [] => true
  | (k, _) :: rest => !(rest.any (fun kv => kv.1 = k)) && pathFreshB rest

def preChars (op : Option String) : List Char :=
  match op with
  | none => []
  | some p => if p ≠ "" then p.data ++ ['/'] else []

/-- The `new_path` computed by one `_flatten_tree` iteration for key `k`
under the optional old path. -/
def newPathStr (op : Option String) (k : String) : String :=
  match op with
  | some p => if p ≠ "" then p ++ "/" ++ k else k
  | none => k

/-! ### `_element_at_zoom` and `_strip_zoom`
(src/mapchete/config/__init__.py lines 642-710)

`_element_at_zoom` returns the element filtered by zoom level.  Python uses
the single object `None` both for "element absent at this zoom" and for a
literal `null` value, and the callers test `is not None`; the embedding
mirrors this by letting `.val .null` play both roles. -/

/-- `_strip_zoom(input_string, strip_string)`: strip the relation characters
from both ends, then `int(...)`; a parse failure raises
`MapcheteConfigError`. -/
def strip_zoom (input_string : String) (strip_chars : List Char) : Except PyErr Int :=
  match pyParseInt (pyStripChars input_string strip_chars) with
  | some n => .ok n
  | none => .error .configError

mutual
def element_at_zoom (name : String) (element : JValue) (zoom : Int) :
    Except PyErr JValue :=
  match element with
  | .dict d =>
    -- a dict carrying the "format" leaf marker is returned unchanged
    if hasKey d "format" then .ok (.dict d)
    else
      match elemList name d zoom with
      | .error e => .error e
      | .ok outs =>
        -- single-child wrappers collapse, except under "input"
        if pLen outs = 1 ∧ name ≠ "input" then .ok (firstValP (.val .null) outs)
        else if pLen outs = 0 then .ok (.val .null)
        else .ok (.dict outs)
  | .val a =>
    -- `name` is always a string here, so the source's trailing
    -- "return all other types as they are" branch is unreachable.
    if pyStartsWith name "zoom" then
      -- cleaned = name.strip("zoom").strip()
      let cleaned := pyStripWS (pyStripChars name ['z', 'o', 'm'])
      if pyStartsWith cleaned "=" then
        match strip_zoom cleaned ['='] with
        | .error e => .error e
        | .ok n => if zoom = n then .ok (.val a) else .ok (.val .null)
      else if pyStartsWith cleaned "<=" then
        match strip_zoom cleaned ['<', '='] with
        | .error e => .error e
        | .ok n => if zoom ≤ n then .ok (.val a) else .ok (.val .null)
      else if pyStartsWith cleaned ">=" then
        match strip_zoom cleaned ['>', '='] with
        | .error e => .error e
        | .ok n => if zoom ≥ n then .ok (.val a) else .ok (.val .null)
      else if pyStartsWith cleaned "<" then
        match strip_zoom cleaned ['<'] with
        | .error e => .error e
        | .ok n => if zoom < n then .ok (.val a) else .ok (.val .null)
      else if pyStartsWith cleaned ">" then
        match strip_zoom cleaned ['>'] with
        | .error e => .error e
        | .ok n => if zoom > n then .ok (.val a) else .ok (.val .null)
      else .ok (.val .null)
    else .ok (.val a)

def elemList (name : String) (entries : PList JAtom) (zoom : Int) :
    Except PyErr (PList JAtom) :=
  match entries with
  | .nil => .ok .nil
  | .cons sub_name sub_element rest =>
    match element_at_zoom sub_name sub_element zoom with
    | .error e => .error e
    | .ok out =>
      match elemList name rest zoom with
      | .error e => .error e
      | .ok outs =>
        -- under "input" even absent children are kept (as None)
        if name = "input" then .ok (.cons sub_name out outs)
        else if out ≠ .val .null then .ok (.cons sub_name out outs)
        else .ok outs
end

/-- `_RESERVED_PARAMETERS` (lines 42-55). -/
def RESERVED_PARAMETERS : List String :=
  ["baselevels", "pyramid", "zoom_levels", "bounds", "process_file",
   "config_dir", "process_minzoom", "process_maxzoom", "process_zoom",
   "process_bounds", "metatiling", "pixelbuffer"]

/-- One zoom level of `_raw_at_zoom` (lines 628-639): non-reserved fields
filtered through `_element_at_zoom`, dropping absent (`None`) results. -/
def rawAtZoomOne (config : PList JAtom) (zoom : Int) : Except PyErr (PList JAtom) :=
  match config with
  | .nil => .ok .nil
  | .cons name el rest =>
    if RESERVED_PARAMETERS.contains name then rawAtZoomOne rest zoom
    else
      match element_at_zoom name el zoom with
      | .error e => .error e
      | .ok out =>
        match rawAtZoomOne rest zoom with
        | .error e => .error e
        | .ok params =>
          if out ≠ .val .null then .ok (.cons name out params) else .ok params

/-- `_raw_at_zoom(config, zooms)`. -/
def raw_at_zoom (config : PList JAtom) (zooms : List Int) :
    Except PyErr (List (Int × PList JAtom)) :=
  match zooms with
  | [] => .ok []
  | z :: rest =>
    match rawAtZoomOne config z with
    | .error e => .error e
    | .ok params =>
      match raw_at_zoom config rest with
      | .error e => .error e
      | .ok tail => .ok ((z, params) :: tail)

/-! ### `get_hash` (src/mapchete/config/__init__.py lines 579-584)

`get_hash(x)` is `hash(x)` for a path string and `hash(json.dumps(x))` for
a mapping.  Python's builtin string hash is a fixed (per-process) function
of the string, so identity comparisons between `get_hash` results are
comparisons of the strings handed to `hash` (up to hash collisions, which
Python's registry dict would conflate).  The embedding therefore returns
the string handed to `hash`; `none` models the implicit `None` returned
for any other input type.  `json.dumps` is modelled character-exactly with
its default settings (insertion-order keys, `", "`/`": "` separators,
`ensure_ascii=True`). -/

/-- Lowercase hex digit. -/
def hexDigit (n : Nat) : Char :=
  if n < 10 then Char.ofNat (48 + n) else Char.ofNat (87 + n)

/-- `\uXXXX` escape of a code unit below 0x10000. -/
def uEscape4 (n : Nat) : List Char :=
  ['\\', 'u', hexDigit (n / 4096 % 16), hexDigit (n / 256 % 16),
   hexDigit (n / 16 % 16), hexDigit (n % 16)]

/-- JSON escaping of one character, `ensure_ascii=True`. -/
def escChar (c : Char) : List Char :=
  if c = '"' then ['\\', '"']
  else if c = '\\' then ['\\', '\\']
  else if c = '\n' then ['\\', 'n']
  else if c = '\t' then ['\\', 't']
  else if c = '\x0d' then ['\\', 'r']
  else if c = Char.ofNat 8 then ['\\', 'b']
  else if c = Char.ofNat 12 then ['\\', 'f']
  else if c.toNat < 32 then uEscape4 c.toNat
  else if c.toNat < 128 then [c]
  else if c.toNat < 65536 then uEscape4 c.toNat
  else
    -- astral characters become a surrogate pair
    uEscape4 (55296 + (c.toNat - 65536) / 1024) ++
      uEscape4 (56320 + (c.toNat - 65536) % 1024)

def escStr : List Char → List Char
  | [] => []
  | c :: r => escChar c ++ escStr r

mutual
def dumpTree : PTree JAtom → List Char
  | .val (.str s) => '"' :: (escStr s.data ++ ['"'])
  | .val (.int n) => (toString n).data
  | .val .null => ['n', 'u', 'l', 'l']
  | .dict d => '{' :: (dumpEntries d ++ ['}'])

def dumpEntries : PList JAtom → List Char
  | .nil => []
  | .cons k v rest =>
    ('"' :: (escStr k.data ++ ['"', ':', ' '])) ++ dumpTree v ++
      (match rest with
       | .nil => []
       | .cons _ _ _ => ',' :: ' ' :: dumpEntries rest)
end

/-- `json.dumps` of a dict with default arguments. -/
def jsonDumps (d : PList JAtom) : String :=
  String.mk ('{' :: (dumpEntries d ++ ['}']))

/-- `get_hash(x)`, represented by the string handed to Python's `hash`. -/
def get_hash : JValue → Option String
  | .val (.str s) => some s
  | .dict d => some (jsonDumps d)
  | _ => none

/-! ### `zoom_levels` / `init_zoom_levels`
(src/mapchete/config/__init__.py lines 199-247) -/

/-- Python `range(lo, hi)` over integers (empty when `hi ≤ lo`). -/
def intRange (lo hi : Int) : List Int :=
  (List.range (hi - lo).toNat).map (fun (i : Nat) => lo + (i : Int))

/-- The `zoom_levels` property: a single int gives a singleton; a dict needs
integer `min`/`max` (`validate_values`) and gives `[min]` when they are
equal, else `range(min, max + 1)`; anything else is a
`MapcheteConfigError`. -/
def zoom_levels_of (raw_zooms : JValue) : Except PyErr (List Int) :=
  match raw_zooms with
  | .val (.int n) => .ok [n]
  | .dict d =>
    match lookupP d "min", lookupP d "max" with
    | some (.val (.int mn)), some (.val (.int mx)) =>
      if mn = mx then .ok [mn] else .ok (intRange mn (mx + 1))
    | _, _ => .error .configError   -- "provide minimum and maximum zoom level"
  | _ => .error .configError        -- "process zoom levels not properly set"

/-- The `zoom` keyword argument of `MapcheteConfig.__init__`. -/
inductive InitZoomArg where
  | noneArg
  | intArg (z : Int)
  | listArg (l : List Int)
deriving DecidableEq

/-- The `init_zoom_levels` property.  `zls` is the value of `zoom_levels`.
An int must be a member of the process zooms; a list of length ≤ 2 must
have its min and max in the process zooms and yields
`range(min, max + 1)`; `min([])`/`max([])` raise `ValueError`; any other
shape is a `MapcheteConfigError`. -/
def init_zoom_levels_of (iz : InitZoomArg) (zls : List Int) : Except PyErr (List Int) :=
  match iz with
  | .noneArg => .ok zls
  | .intArg z =>
    if z ∈ zls then .ok [z] else .error .configError
  | .listArg l =>
    if l.length ≤ 2 then
      match l with
      | [] => .error .valueError     -- min() of an empty sequence
      | h :: t =>
        let mn := t.foldl min h
        let mx := t.foldl max h
        if mn ∉ zls ∨ mx ∉ zls then .error .configError
        else .ok (intRange mn (mx + 1))
    else .error .configError         -- "not properly formated"

/-! ### Metatiling constraint (src/mapchete/config/__init__.py lines 157-180) -/

/-- `d.get("metatiling", default)` restricted to integer values (a non-int
metatiling would make the `>` comparison below raise under Python 3). -/
def metatilingGet (d : PList JAtom) (default : Int) : Except PyErr Int :=
  match lookupP d "metatiling" with
  | none => .ok default
  | some (.val (.int n)) => .ok n
  | some _ => .error .typeError

/-- Step (3) of `MapcheteConfig.__init__`: process metatiling defaults to 1,
output metatiling defaults to the process metatiling, and output metatiles
larger than process metatiles raise (a `ValueError` wrapped into
`MapcheteConfigError`).  Returns the validated
`(process_metatiling, output_metatiling)` pair. -/
def pyramids_check (pyramid output : PList JAtom) : Except PyErr (Int × Int) :=
  match metatilingGet pyramid 1 with
  | .error e => .error e
  | .ok process_metatiling =>
    match metatilingGet output process_metatiling with
    | .error e => .error e
    | .ok output_metatiling =>
      if output_metatiling > process_metatiling then .error .configError
      else .ok (process_metatiling, output_metatiling)

/-! ### The input registry (`MapcheteConfig.input`, lines 299-366)

`load_input_reader` is an external driver interface; a successfully loaded
reader is modelled by a `Handle` recording the registry key it was created
for and the declaration it was created from.  One registry entry holds one
handle, so handle identity in the model is registry-entry identity. -/

structure Handle where
  hkey : Option String
  decl : JValue
deriving DecidableEq

/-- One step of the collection loop: `if v is not None:
raw_inputs[get_hash(v)] = v`. -/
def collectStep (acc : List (Option String × JValue)) (kv : String × JValue) :
    List (Option String × JValue) :=
  if kv.2 = .val .null then acc else setKeyL acc (get_hash kv.2) kv.2

/-- The collection loop of the `input` property (lines 312-324): for every
initialized zoom level, flatten the zoom's `input` tree and key every
non-`None` declaration by its hash in `raw_inputs`.  A missing zoom in
`_params_at_zoom` would be a `KeyError`; iterating a non-dict non-`None`
`input` raises. -/
def collectOne (raw_inputs : List (Option String × JValue)) (input_at_zoom : JValue) :
    Except PyErr (List (Option String × JValue)) :=
  match input_at_zoom with
  | .val .null => .ok raw_inputs    -- `if input_at_zoom is None: continue`
  | .dict d => .ok ((flatten_tree d).foldl collectStep raw_inputs)
  | .val _ => .error .typeError     -- six.iteritems on a non-dict raises

def collectRawInputsGo (paz : List (Int × PList JAtom))
    (acc : List (Option String × JValue)) :
    List Int → Except PyErr (List (Option String × JValue))
  | [] => .ok acc
  | z :: rest =>
    match lookupL paz z with
    | none => .error .keyError
    | some params =>
      match lookupP params "input" with
      | none => collectRawInputsGo paz acc rest
      | some input_at_zoom =>
        match collectOne acc input_at_zoom with
        | .error e => .error e
        | .ok acc2 => collectRawInputsGo paz acc2 rest

def collectRawInputs (paz : List (Int × PList JAtom)) (zooms : List Int) :
    Except PyErr (List (Option String × JValue)) :=
  collectRawInputsGo paz [] zooms

/-- The materialization loop (lines 325-366): load one reader per
`raw_inputs` entry, in order; a string is a path input, a dict an abstract
input, anything else raises `MapcheteConfigError`.  Driver loading and the
eager `bbox` call are external. -/
def materializeInputs : List (Option String × JValue) →
    Except PyErr (List (Option String × Handle))
  | [] => .ok []
  | (k, v) :: rest =>
    match v with
    | .val (.str _) =>
      match materializeInputs rest with
      | .error e => .error e
      | .ok tail => .ok ((k, Handle.mk k v) :: tail)
    | .dict _ =>
      match materializeInputs rest with
      | .error e => .error e
      | .ok tail => .ok ((k, Handle.mk k v) :: tail)
    | _ => .error .configError      -- "invalid input type"

/-- `MapcheteConfig.input` as a function of the per-zoom parameters and the
initialized zoom levels. -/
def inputRegistry (paz : List (Int × PList JAtom)) (zooms : List Int) :
    Except PyErr (List (Option String × Handle)) :=
  match collectRawInputs paz zooms with
  | .error e => .error e
  | .ok raw => materializeInputs raw

/-! ### The flat snapshot step of `params_at_zoom` (lines 420-429)

`flat_inputs[k]` is `None` for a `None` leaf and `self.input[get_hash(v)]`
otherwise (`KeyError` when the hash is not registered). -/

def snapFold (reg : List (Option String × Handle)) :
    PList (Option Handle) → List (String × JValue) → Except PyErr (PList (Option Handle))
  | acc, [] => .ok acc
  | acc, (k, v) :: rest =>
    if v = .val .null then snapFold reg (setKeyP acc k (.val none)) rest
    else
      match lookupL reg (get_hash v) with
      | some h => snapFold reg (setKeyP acc k (.val (some h))) rest
      | none => .error .keyError

/-- The flat handle mapping built by `params_at_zoom` for one zoom's
parameters (before `_unflatten_tree` re-nests it).  A missing `input` key
yields the empty mapping (`out["input"] = {}`). -/
def flatInputSnapshot (params : PList JAtom) (reg : List (Option String × Handle)) :
    Except PyErr (PList (Option Handle)) :=
  match lookupP params "input" with
  | none => .ok .nil
  | some (.dict d) => snapFold reg .nil (flatten_tree d)
  | some _ => .error .typeError

/-! ### Well-formedness predicates for trees (used to state the round-trip
property of the tree codec) -/

/-- A key usable as a path segment: non-empty and free of the `/`
separator. -/
def goodKeyB (k : String) : Bool :=
  !(k.data.isEmpty) && k.data.all (fun c => c ≠ '/')

def isNilP {V : Type} : PList V → Bool
  | .nil => true
  | .cons _ _ _ => false

/-- A leaf in the sense of `_flatten_tree`: a scalar, or a dict carrying the
`"format"` marker. -/
def leafB {V : Type} : PTree V → Bool
  | .val _ => true
  | .dict sub => hasKey sub "format"

mutual
/-- Every non-leaf level has pairwise distinct, path-safe keys, and every
non-leaf sub-dict is non-empty.  Leaf sub-dicts (with `"format"`) are
unconstrained. -/
def goodValB {V : Type} : PTree V → Bool
  | .val _ => true
  | .dict sub =>
    if hasKey sub "format" then true else !(isNilP sub) && goodEntriesB sub

def goodEntriesB {V : Type} : PList V → Bool
  | .nil => true
  | .cons k v rest =>
    goodKeyB k && !(hasKey rest k) && goodValB v && goodEntriesB rest
end

mutual
/-- Nesting depth of non-leaf dicts below a value (a leaf has depth 0). -/
def depthV {V : Type} : PTree V → Nat
  | .val _ => 0
  | .dict sub => if hasKey sub "format" then 0 else depthE sub + 1

def depthE {V : Type} : PList V → Nat
  | .nil => 0
  | .cons _ v rest => max (depthV v) (depthE rest)
end

/-- Strings whose JSON escaping is the identity (printable ASCII without
quote and backslash). -/
def simpleStrB (s : String) : Bool :=
  s.data.all (fun c => 32 ≤ c.toNat && c.toNat ≤ 126 && c ≠ '"' && c ≠ '\\')

/-! ### Concrete configurations used by counterexamples and witnesses -/

/-- A depth-4 tree: `{"a": {"b": {"c": {"x": 1, "y": 2}}}}`. -/
def c1DeepTree : PList JAtom :=
  .cons "a" (.dict (.cons "b" (.dict (.cons "c"
    (.dict (.cons "x" (.val (.int 1)) (.cons "y" (.val (.int 2)) .nil)))
    .nil)) .nil)) .nil

/-- A depth-3 tree with a group, a scalar and a `None` leaf:
`{"a": {"b": {"x": 1, "y": 2}, "c": "s"}, "d": None}`. -/
def c1Depth3Tree : PList JAtom :=
  .cons "a" (.dict (.cons "b"
      (.dict (.cons "x" (.val (.int 1)) (.cons "y" (.val (.int 2)) .nil)))
      (.cons "c" (.val (.str "s")) .nil)))
    (.cons "d" (.val .null) .nil)

/-- The zoom-conditional node of claim C4:
`{"zoom<3": "A", "zoom>=3": "B"}`. -/
def zoomNodeC4 : JValue :=
  .dict (.cons "zoom<3" (.val (.str "A")) (.cons "zoom>=3" (.val (.str "B")) .nil))

/-- `{"format": "f", "path": "p"}`. -/
def c2Decl1 : PList JAtom :=
  .cons "format" (.val (.str "f")) (.cons "path" (.val (.str "p")) .nil)

/-- `{"path": "p", "format": "f"}` — the same key/value set as `c2Decl1`
in the opposite insertion order. -/
def c2Decl2 : PList JAtom :=
  .cons "path" (.val (.str "p")) (.cons "format" (.val (.str "f")) .nil)

/-- Per-zoom parameters binding tree paths `a` and `b` to the two
order-variant declarations at zoom 5. -/
def c2Paz : List (Int × PList JAtom) :=
  [(5, .cons "input" (.dict (.cons "a" (.dict c2Decl1)
      (.cons "b" (.dict c2Decl2) .nil))) .nil)]

/-- The same input tree with both paths bound to the *identically ordered*
declaration `c2Decl1` (the deduplicable situation). -/
def c2TreeDup : PList JAtom := .cons "a" (.dict c2Decl1) (.cons "b" (.dict c2Decl1) .nil)

def c2ParamsDup : PList JAtom := .cons "input" (.dict c2TreeDup) .nil

def c2PazDup : List (Int × PList JAtom) := [(5, c2ParamsDup)]

/-- The registry the deduplicable configuration produces: one entry. -/
def c2RegDup : List (Option String × Handle) :=
  [(get_hash (.dict c2Decl1), Handle.mk (get_hash (.dict c2Decl1)) (.dict c2Decl1))]

/-- `{"a": 1, "b": 2}`. -/
def c3DictAB : PList JAtom :=
  .cons "a" (.val (.int 1)) (.cons "b" (.val (.int 2)) .nil)

/-- `{"b": 2, "a": 1}`. -/
def c3DictBA : PList JAtom :=
  .cons "b" (.val (.int 2)) (.cons "a" (.val (.int 1)) .nil)

/-- The relation prefix recognized by `_element_at_zoom`'s if-chain, in the
source's test order (used to state claim C6). -/
def relOf (cleaned : String) : Option (List Char) :=
  if pyStartsWith cleaned "=" then some ['=']
  else if pyStartsWith cleaned "<=" then some ['<', '=']
  else if pyStartsWith cleaned ">=" then some ['>', '=']
  else if pyStartsWith cleaned "<" then some ['<']
  else if pyStartsWith cleaned ">" then some ['>']
  else none

/-! ### The configuration object (`MapcheteConfig`) as a state machine

Geometry (shapely) and the tile pyramid are external collaborators.  The
geometry type is abstract: `GeomOps` packages the operations the source
uses, together with the documented behaviour of the external interface
that the claims rely on (`buffer(0)` is the point-set identity used to
heal geometries; the union of no geometries is the empty geometry). -/

structure BoundsT where
  left : Int
  bottom : Int
  right : Int
  top : Int
deriving DecidableEq

structure GeomOps (G : Type) where
  unionList : List G → G          -- cascaded_union
  inter : G → G → G               -- geometry.intersection
  boxOf : BoundsT → G             -- shapely.geometry.box(*bounds)
  envelopeOf : G → BoundsT        -- geometry.bounds
  isEmptyG : G → Bool             -- geometry.is_empty (also geometry truthiness)
  emptyG : G
  buffer0 : G → G                 -- geometry.buffer(0)
  buffer0_id : ∀ g, buffer0 g = g
  union_nil : unionList [] = emptyG
  empty_isEmpty : isEmptyG emptyG = true

/-- A `BufferedTilePyramid` as far as the configuration code reads it. -/
structure PyramidT where
  grid : String
  metatiling : Int
  pixelbuffer : Int
deriving DecidableEq

/-- The result of the `baselevels` property (`none` models the `{}`
returned when no baselevels are configured). -/
structure BaselevelsT where
  zooms : List Int
  lower : JValue
  higher : JValue
  tile_pyramid : PyramidT
deriving DecidableEq

def minList : List Int → Option Int
  | [] => none
  | h :: t => some (t.foldl min h)

def maxList : List Int → Option Int
  | [] => none
  | h :: t => some (t.foldl max h)

/-- The state of a `MapcheteConfig` object: the raw document, the fields
computed during `__init__`, the `cached_property` caches and the two area
caches.  `availableFormats`, `validWithConfig` and `bboxF` stand for the
external output-format registry, the output driver's
`is_valid_with_config` and `InputHandle.bbox`. -/
structure ConfigState (G : Type) where
  raw : PList JAtom
  config_dir : String
  params_at_zoom : List (Int × PList JAtom)
  zoom_levels : List Int
  init_zoom_levels : List Int
  init_bounds : BoundsT
  process_pyramid : PyramidT
  output_pyramid : PyramidT
  availableFormats : List String
  validWithConfig : PList JAtom → Bool
  bboxF : Handle → G
  output_cache : Option (PList JAtom)
  input_cache : Option (List (Option String × Handle))
  baselevels_cache : Option (Option BaselevelsT)
  cache_area_at_zoom : List (Int × G)
  cache_full_process_area : Option G

/-- `os.path.normpath(os.path.join(a, b))`; the exact path arithmetic is
external and immaterial to the claims. -/
def pathJoin (a b : String) : String := a ++ "/" ++ b

/-- The `output` cached property (lines 270-297).  On a cache miss the body
mutates the raw document: `output_params` IS `self._raw["output"]`, and
`update` writes `path`, `type`, `pixelbuffer` and `metatiling` into it.
Since `_raw_at_zoom` passed the same dict object through into every
per-zoom parameter snapshot (a dict with `"format"` is returned unchanged
by `_element_at_zoom`), the mutation is mirrored there too.  The
`cached_property` stores the result only when the body returns without
raising.  The loaded writer object is represented by its validated
parameter dict. -/
def outputOp {G : Type} (s : ConfigState G) :
    (Except PyErr (PList JAtom)) × ConfigState G :=
  match s.output_cache with
  | some w => (.ok w, s)
  | none =>
    match lookupP s.raw "output" with
    | none => (.error .keyError, s)
    | some (.val _) => (.error .typeError, s)   -- .get on a non-dict raises
    | some (.dict op0) =>
      let cont := fun (op1 : PList JAtom) =>
        let op2 := setKeyP (setKeyP (setKeyP op1
          "type" (.val (.str s.output_pyramid.grid)))
          "pixelbuffer" (.val (.int s.output_pyramid.pixelbuffer)))
          "metatiling" (.val (.int s.output_pyramid.metatiling))
        let s1 : ConfigState G :=
          { s with
            raw := setKeyP s.raw "output" (.dict op2),
            params_at_zoom := s.params_at_zoom.map (fun zp =>
              if hasKey zp.2 "output" then (zp.1, setKeyP zp.2 "output" (.dict op2))
              else zp) }
        match lookupP op2 "format" with
        | some (.val (.str f)) =>
          if s.availableFormats.contains f then
            if s.validWithConfig op2 then (.ok op2, { s1 with output_cache := some op2 })
            else (.error .configError, s1)
          else (.error .configError, s1)
        | some _ => (.error .configError, s1)  -- format not in available formats
        | none => (.error .configError, s1)    -- "output format not specified"
      match lookupP op0 "path" with
      | some (.val (.str pth)) =>
        cont (setKeyP op0 "path" (.val (.str (pathJoin s.config_dir pth))))
      | some _ => (.error .typeError, s)   -- os.path.join on a non-string raises
      | none => cont (setKeyP op0 "path" (.val .null))

/-- The body of the `input` cached property as a function of the state. -/
def inputBody {G : Type} (s : ConfigState G) :
    Except PyErr (List (Option String × Handle)) :=
  inputRegistry s.params_at_zoom s.init_zoom_levels

/-- The value `self.input` evaluates to (cache hit or body). -/
def inputsOfS {G : Type} (s : ConfigState G) :
    Except PyErr (List (Option String × Handle)) :=
  match s.input_cache with
  | some r => .ok r
  | none => inputBody s

/-- Accessing the `input` cached property. -/
def inputOp {G : Type} (s : ConfigState G) :
    (Except PyErr (List (Option String × Handle))) × ConfigState G :=
  match s.input_cache with
  | some r => (.ok r, s)
  | none =>
    match inputBody s with
    | .ok r => (.ok r, { s with input_cache := some r })
    | .error e => (.error e, s)

/-- The `baselevels` cached property (lines 368-401).  Note that Python
evaluates `min(self.zoom_levels)` / `max(self.zoom_levels)` eagerly as the
`.get` defaults, so empty process zoom levels raise `ValueError` even when
`min`/`max` are given. -/
def baselevelsOp {G : Type} (s : ConfigState G) :
    (Except PyErr (Option BaselevelsT)) × ConfigState G :=
  match s.baselevels_cache with
  | some b => (.ok b, s)
  | none =>
    match lookupP s.raw "baselevels" with
    | none => (.ok none, { s with baselevels_cache := some none })
    | some (.val _) => (.error .typeError, s)  -- iterating a non-dict raises
    | some (.dict bl) =>
      let mnv := lookupP bl "min"
      let mxv := lookupP bl "max"
      if mnv = none ∧ mxv = none then (.error .configError, s)
      else
        let okMinMax : Option (PTree JAtom) → Bool := fun v =>
          match v with
          | none => true
          | some (.val (.int n)) => decide (0 ≤ n)
          | some _ => false
        if okMinMax mnv ∧ okMinMax mxv then
          match minList s.zoom_levels, maxList s.zoom_levels with
          | some mnD, some mxD =>
            let zmin := match mnv with | some (.val (.int n)) => n | _ => mnD
            let zmax := match mxv with | some (.val (.int n)) => n | _ => mxD
            let b : BaselevelsT :=
              { zooms := intRange zmin (zmax + 1),
                lower := (lookupP bl "lower").getD (.val (.str "nearest")),
                higher := (lookupP bl "higher").getD (.val (.str "nearest")),
                tile_pyramid :=
                  { grid := s.output_pyramid.grid,
                    metatiling := s.process_pyramid.metatiling,
                    pixelbuffer := s.output_pyramid.pixelbuffer } }
            (.ok (some b), { s with baselevels_cache := some (some b) })
          | _, _ => (.error .valueError, s)   -- min()/max() of empty zoom levels
        else (.error .configError, s)

/-- A `params_at_zoom` snapshot: the zoom's parameters (shallow copy)
paired with the re-nested input tree whose leaves are handles or `None`.
-/
structure SnapshotT where
  base : PList JAtom
  inputTree : PList (Option Handle)

/-- `params_at_zoom(zoom)` (lines 403-432). -/
def params_at_zoomOp {G : Type} (zoom : Int) (s : ConfigState G) :
    (Except PyErr SnapshotT) × ConfigState G :=
  if zoom ∈ s.init_zoom_levels then
    match lookupL s.params_at_zoom zoom with
    | none => (.error .keyError, s)
    | some params =>
      match lookupP params "input" with
      | none => (.ok ⟨params, .nil⟩, s)       -- out["input"] = {}
      | some (.dict d) =>
        match inputOp s with
        | (.error e, s1) => (.error e, s1)
        | (.ok reg, s1) =>
          match snapFold reg .nil (flatten_tree d) with
          | .error e => (.error e, s1)
          | .ok flats =>
            match unflatten_tree flats with
            | none => (.error .typeError, s1)
            | some t => (.ok ⟨params, t⟩, s1)
      | some _ => (.error .typeError, s)      -- flattening a non-dict raises
  else (.error .valueError, s)

/-- The bbox collection of `_area_at_zoom` (lines 466-472): bounding boxes
of the registry handles of every non-`None` top-level entry of the zoom's
`input` dict, in iteration order; an unregistered hash is a `KeyError`. -/
def gatherBBoxes {G : Type} (bbox : Handle → G)
    (reg : List (Option String × Handle)) : PList JAtom → Except PyErr (List G)
  | .nil => .ok []
  | .cons _ v rest =>
    if v = .val .null then gatherBBoxes bbox reg rest
    else
      match lookupL reg (get_hash v) with
      | none => .error .keyError
      | some h =>
        match gatherBBoxes bbox reg rest with
        | .error e => .error e
        | .ok gs => .ok (bbox h :: gs)

/-- The value `_area_at_zoom(zoom)` computes (cache aside): the union of
the input bboxes intersected with the initialized bounds (`init_bounds` is
a 4-field named tuple and therefore always truthy, so the source's
`if self.init_bounds` intersection branch is always taken), or the
`init_bounds` box when the zoom has no `input` key. -/
def pureAreaZ {G : Type} (ops : GeomOps G) (s : ConfigState G) (z : Int) :
    Except PyErr G :=
  match lookupL s.params_at_zoom z with
  | none => .error .keyError
  | some params =>
    match lookupP params "input" with
    | none => .ok (ops.boxOf s.init_bounds)
    | some (.dict d) =>
      match inputsOfS s with
      | .error e => .error e
      | .ok reg =>
        match gatherBBoxes s.bboxF reg d with
        | .error e => .error e
        | .ok gs => .ok (ops.inter (ops.unionList gs) (ops.boxOf s.init_bounds))
    | some _ => .error .typeError
  
/-- `_area_at_zoom(zoom)` (lines 462-479) with its per-zoom cache; the
`self.input` access inside is the cached-property access. -/
def areaZOp {G : Type} (ops : GeomOps G) (z : Int) (s : ConfigState G) :
    (Except PyErr G) × ConfigState G :=
  match lookupL s.cache_area_at_zoom z with
  | some g => (.ok g, s)
  | none =>
    match lookupL s.params_at_zoom z with
    | none => (.error .keyError, s)
    | some params =>
      match lookupP params "input" with
      | none =>
        let g := ops.boxOf s.init_bounds
        (.ok g, { s with cache_area_at_zoom := setKeyL s.cache_area_at_zoom z g })
      | some (.dict d) =>
        match inputOp s with
        | (.error e, s1) => (.error e, s1)
        | (.ok reg, s1) =>
          match gatherBBoxes s1.bboxF reg d with
          | .error e => (.error e, s1)
          | .ok gs =>
            let g := ops.inter (ops.unionList gs) (ops.boxOf s1.init_bounds)
            (.ok g, { s1 with cache_area_at_zoom := setKeyL s1.cache_area_at_zoom z g })
      | some _ => (.error .typeError, s)

/-- `[self._area_at_zoom(z) for z in self.init_zoom_levels]`, threading the
object state left to right. -/
def mapAreas {G : Type} (ops : GeomOps G) :
    List Int → ConfigState G → (Except PyErr (List G)) × ConfigState G
  | [], s => (.ok [], s)
  | z :: rest, s =>
    match areaZOp ops z s with
    | (.error e, s1) => (.error e, s1)
    | (.ok g, s1) =>
      match mapAreas ops rest s1 with
      | (.error e, s2) => (.error e, s2)
      | (.ok gs, s2) => (.ok (g :: gs), s2)

/-- `area_at_zoom(zoom)` (lines 434-460).  For `None`: the memoized
`cascaded_union(...).buffer(0)` of the per-zoom areas — note the cache test
is Python truthiness, so an empty cached geometry is recomputed. -/
def area_at_zoomOp {G : Type} (ops : GeomOps G) (arg : Option Int) (s : ConfigState G) :
    (Except PyErr G) × ConfigState G :=
  match arg with
  | some z =>
    if z ∈ s.init_zoom_levels then areaZOp ops z s
    else (.error .valueError, s)
  | none =>
    match s.cache_full_process_area with
    | some g =>
      if ops.isEmptyG g then
        match mapAreas ops s.init_zoom_levels s with
        | (.error e, s1) => (.error e, s1)
        | (.ok gs, s1) =>
          let g2 := ops.buffer0 (ops.unionList gs)
          (.ok g2, { s1 with cache_full_process_area := some g2 })
      else (.ok g, s)
    | none =>
      match mapAreas ops s.init_zoom_levels s with
      | (.error e, s1) => (.error e, s1)
      | (.ok gs, s1) =>
        let g2 := ops.buffer0 (ops.unionList gs)
        (.ok g2, { s1 with cache_full_process_area := some g2 })

/-- `bounds_at_zoom(zoom)` (lines 481-495): `()` — modelled `none` — for an
empty area, else the envelope; the area is queried twice as in the source.
-/
def bounds_at_zoomOp {G : Type} (ops : GeomOps G) (arg : Option Int)
    (s : ConfigState G) : (Except PyErr (Option BoundsT)) × ConfigState G :=
  match area_at_zoomOp ops arg s with
  | (.error e, s1) => (.error e, s1)
  | (.ok g, s1) =>
    if ops.isEmptyG g then (.ok none, s1)
    else
      match area_at_zoomOp ops arg s1 with
      | (.error e, s2) => (.error e, s2)
      | (.ok g2, s2) => (.ok (some (ops.envelopeOf g2)), s2)

/-- A state reachable from a completed `__init__`: steps (6) and (7) have
populated the `output` and `input` caches. -/
def Constructed {G : Type} (s : ConfigState G) : Prop :=
  s.output_cache.isSome = true ∧ s.input_cache.isSome = true

/-- One pure per-zoom area list (no cache threading). -/
def pureAreas {G : Type} (ops : GeomOps G) (s : ConfigState G) :
    List Int → Except PyErr (List G)
  | [] => .ok []
  | z :: rest =>
    match pureAreaZ ops s z with
    | .error e => .error e
    | .ok g =>
      match pureAreas ops s rest with
      | .error e => .error e
      | .ok gs => .ok (g :: gs)

/-- The memoized full process area, as a pure value. -/
def pureFullArea {G : Type} (ops : GeomOps G) (s : ConfigState G) : Except PyErr G :=
  match pureAreas ops s s.init_zoom_levels with
  | .error e => .error e
  | .ok gs => .ok (ops.buffer0 (ops.unionList gs))

/-- Cache coherence: every cached value equals the value its computation
would produce.  Freshly constructed objects have empty caches and are
trivially coherent; the operations preserve coherence. -/
def cacheCoherent {G : Type} (ops : GeomOps G) (s : ConfigState G) : Prop :=
  (∀ z g, lookupL s.cache_area_at_zoom z = some g → pureAreaZ ops s z = .ok g) ∧
  (∀ g, s.cache_full_process_area = some g → pureFullArea ops s = .ok g) ∧
  (∀ r, s.input_cache = some r → inputBody s = .ok r)

/-- The initialized zoom set denoted by a `zoom` argument (the set the
subset invariant quantifies over): the declared zooms for `None`, a
singleton for an int, `range(min, max + 1)` for a non-empty list. -/
def initSetOf (iz : InitZoomArg) (zls : List Int) : List Int :=
  match iz with
  | .noneArg => zls
  | .intArg z => [z]
  | .listArg [] => []
  | .listArg (h :: t) => intRange (t.foldl min h) ((t.foldl max h) + 1)


/-- Two states agreeing on every field the pure area computations read
(they may differ in caches, as long as `self.input` evaluates equally). -/
def pureEqS {G : Type} (s s' : ConfigState G) : Prop :=
  s'.params_at_zoom = s.params_at_zoom ∧
  s'.init_zoom_levels = s.init_zoom_levels ∧
  s'.init_bounds = s.init_bounds ∧
  s'.bboxF = s.bboxF ∧
  inputsOfS s' = inputsOfS s

/-- Abstract geometry instantiated at `Unit` and minimal configuration
states, used to evaluate the state-machine claims on concrete inputs. -/
def unitOps : GeomOps Unit where
  unionList := fun _ => ()
  inter := fun _ _ => ()
  boxOf := fun _ => ()
  envelopeOf := fun _ => ⟨0, 0, 0, 0⟩
  isEmptyG := fun _ => true
  emptyG := ()
  buffer0 := fun g => g
  buffer0_id := fun _ => rfl
  union_nil := rfl
  empty_isEmpty := rfl

def c5State : ConfigState Unit where
  raw := .nil
  config_dir := ""
  params_at_zoom := [(5, .nil)]
  zoom_levels := [5]
  init_zoom_levels := [5]
  init_bounds := ⟨0, 0, 1, 1⟩
  process_pyramid := ⟨"geodetic", 1, 0⟩
  output_pyramid := ⟨"geodetic", 1, 0⟩
  availableFormats := []
  validWithConfig := fun _ => true
  bboxF := fun _ => ()
  output_cache := none
  input_cache := none
  baselevels_cache := none
  cache_area_at_zoom := []
  cache_full_process_area := none

def c7State : ConfigState Unit where
  raw := .cons "process" (.val (.str "proc.py")) .nil
  config_dir := ""
  params_at_zoom := [(5, .nil)]
  zoom_levels := [5]
  init_zoom_levels := [5]
  init_bounds := ⟨0, 0, 1, 1⟩
  process_pyramid := ⟨"geodetic", 1, 0⟩
  output_pyramid := ⟨"geodetic", 1, 0⟩
  availableFormats := []
  validWithConfig := fun _ => true
  bboxF := fun _ => ()
  output_cache := some .nil
  input_cache := some []
  baselevels_cache := none
  cache_area_at_zoom := []
  cache_full_process_area := none

/-! ## Lemmas and claim theorems -/

theorem mem_intRange {x lo hi : Int} : x ∈ intRange lo hi ↔ lo ≤ x ∧ x < hi := by
  unfold intRange
  rw [List.mem_map]
  constructor
  · rintro ⟨i, hmem, hx⟩
    rw [List.mem_range] at hmem
    omega
  · intro h
    refine ⟨(x - lo).toNat, ?_, ?_⟩
    · rw [List.mem_range]
      omega
    · omega

theorem intRange_eq_nil {lo hi : Int} (h : hi ≤ lo) : intRange lo hi = [] := by
  unfold intRange
  have h0 : (hi - lo).toNat = 0 := by omega
  rw [h0]
  rfl

/-! ### C4: zoom filtering of `{"zoom<3": "A", "zoom>=3": "B"}` -/

theorem elem_zoomLt3_eval (z : Int) : element_at_zoom "zoom<3" (.val (.str "A")) z =
    (if z < 3 then .ok (.val (.str "A")) else .ok (.val .null)) := rfl

theorem elem_zoomGe3_eval (z : Int) : element_at_zoom "zoom>=3" (.val (.str "B")) z =
    (if z ≥ 3 then .ok (.val (.str "B")) else .ok (.val .null)) := rfl

/-- C4: under any non-`input` key, `{"zoom<3": "A", "zoom>=3": "B"}`
resolves at every integer zoom level to exactly one of `"A"` (zoom < 3) and
`"B"` (zoom ≥ 3) — in particular to `"A"` at zoom 2 and `"B"` at zoom 3 —
never to both, to neither, or to an error. -/
theorem c4_zoom_filtering (z : Int) (name : String) (hname : name ≠ "input") :
    element_at_zoom name zoomNodeC4 z =
      .ok (.val (.str (if z < 3 then "A" else "B"))) := by
  have step1 : element_at_zoom name zoomNodeC4 z =
      (match elemList name (.cons "zoom<3" (.val (.str "A"))
          (.cons "zoom>=3" (.val (.str "B")) .nil)) z with
       | .error e => .error e
       | .ok outs =>
         if pLen outs = 1 ∧ name ≠ "input" then .ok (firstValP (.val .null) outs)
         else if pLen outs = 0 then .ok (.val .null)
         else .ok (.dict outs)) := rfl
  have step2 : elemList name (.cons "zoom<3" (.val (.str "A"))
      (.cons "zoom>=3" (.val (.str "B")) .nil)) z =
      (match element_at_zoom "zoom<3" (.val (.str "A")) z with
       | .error e => .error e
       | .ok out =>
         match elemList name (.cons "zoom>=3" (.val (.str "B")) .nil) z with
         | .error e => .error e
         | .ok outs =>
           if name = "input" then .ok (.cons "zoom<3" out outs)
           else if out ≠ .val .null then .ok (.cons "zoom<3" out outs)
           else .ok outs) := rfl
  have step3 : elemList name (.cons "zoom>=3" (.val (.str "B")) .nil) z =
      (match element_at_zoom "zoom>=3" (.val (.str "B")) z with
       | .error e => .error e
       | .ok out =>
         if name = "input" then .ok (.cons "zoom>=3" out .nil)
         else if out ≠ .val .null then .ok (.cons "zoom>=3" out .nil)
         else .ok .nil) := rfl
  by_cases hz : z < 3
  · have h1 : element_at_zoom "zoom<3" (.val (.str "A")) z = .ok (.val (.str "A")) := by
      rw [elem_zoomLt3_eval, if_pos hz]
    have h2 : element_at_zoom "zoom>=3" (.val (.str "B")) z = .ok (.val .null) := by
      rw [elem_zoomGe3_eval, if_neg (by omega)]
    rw [step1, step2, step3, h1, h2]
    simp [hname, pLen, firstValP, hz]
  · have h1 : element_at_zoom "zoom<3" (.val (.str "A")) z = .ok (.val .null) := by
      rw [elem_zoomLt3_eval, if_neg hz]
    have h2 : element_at_zoom "zoom>=3" (.val (.str "B")) z = .ok (.val (.str "B")) := by
      rw [elem_zoomGe3_eval, if_pos (by omega)]
    rw [step1, step2, step3, h1, h2]
    simp [hname, pLen, firstValP, hz]

theorem c4_zoom_filtering_witness :
    ("user_field" ≠ "input") ∧
      element_at_zoom "user_field" zoomNodeC4 2 = .ok (.val (.str "A")) ∧
      element_at_zoom "user_field" zoomNodeC4 3 = .ok (.val (.str "B")) :=
  ⟨by decide,
   by simpa using c4_zoom_filtering 2 "user_field" (by decide),
   by simpa using c4_zoom_filtering 3 "user_field" (by decide)⟩

/-! ### C6: malformed zoom-expression operands -/

/-- C6 counterexample: the key `"zoom=1z"` has the malformed operand `"1z"`
(it does not parse as an integer), yet `_element_at_zoom` raises no error
at any zoom: the trailing `z` is silently removed by `name.strip("zoom")`,
the element is kept at zoom 1 and pruned at zoom 0. -/
theorem c6_counterexample :
    pyParseInt "1z" = none ∧
      element_at_zoom "zoom=1z" (.val (.str "X")) 1 = .ok (.val (.str "X")) ∧
      element_at_zoom "zoom=1z" (.val (.str "X")) 0 = .ok (.val .null) :=
  ⟨by decide, by decide, by decide⟩

/-- C6 amended: for a string key starting with `"zoom"` and a non-mapping
value, evaluation first strips `z`/`o`/`m` characters and whitespace from
both ends of the remainder; if what is left starts with a relation symbol
and the text obtained by stripping the relation characters from both ends
does not parse as an integer, a `MapcheteConfigError` is raised at every
zoom level.  (Malformations consisting only of such strippable characters
are silently accepted, as the counterexample shows.) -/
theorem c6_amended_zoom_operand (z : Int) (a : JAtom) (name : String) (rel : List Char)
    (hstart : pyStartsWith name "zoom" = true)
    (hrel : relOf (pyStripWS (pyStripChars name ['z', 'o', 'm'])) = some rel)
    (hstrip : strip_zoom (pyStripWS (pyStripChars name ['z', 'o', 'm'])) rel =
      .error .configError) :
    element_at_zoom name (.val a) z = .error .configError := by
  simp only [element_at_zoom, hstart, if_true]
  generalize pyStripWS (pyStripChars name ['z', 'o', 'm']) = cleaned at hrel hstrip ⊢
  unfold relOf at hrel
  split at hrel
  case isTrue h1 =>
    injection hrel with hrel
    subst hrel
    rw [if_pos h1, hstrip]
  case isFalse h1 =>
    rw [if_neg h1]
    split at hrel
    case isTrue h2 =>
      injection hrel with hrel
      subst hrel
      rw [if_pos h2, hstrip]
    case isFalse h2 =>
      rw [if_neg h2]
      split at hrel
      case isTrue h3 =>
        injection hrel with hrel
        subst hrel
        rw [if_pos h3, hstrip]
      case isFalse h3 =>
        rw [if_neg h3]
        split at hrel
        case isTrue h4 =>
          injection hrel with hrel
          subst hrel
          rw [if_pos h4, hstrip]
        case isFalse h4 =>
          rw [if_neg h4]
          split at hrel
          case isTrue h5 =>
            injection hrel with hrel
            subst hrel
            rw [if_pos h5, hstrip]
          case isFalse h5 =>
            exact absurd hrel (by simp)

theorem c6_amended_zoom_operand_witness :
    relOf (pyStripWS (pyStripChars "zoom<abc" ['z', 'o', 'm'])) = some ['<'] ∧
      element_at_zoom "zoom<abc" (.val (.str "X")) 7 = .error .configError :=
  ⟨by decide,
   c6_amended_zoom_operand 7 (.str "X") "zoom<abc" ['<'] (by decide) (by decide)
     (by decide)⟩

/-! ### C8: initialized zooms must be a subset of declared zooms -/

/-- C8: the declared zoom levels form a contiguous range (`zoom_levels`
always yields one), and whenever the initialized zoom set determined by the
`zoom` argument contains a level outside the declared zooms,
`init_zoom_levels` raises a `MapcheteConfigError` — so no configuration
object is produced. -/
theorem c8_init_zoom_subset (iz : InitZoomArg) (zls : List Int) (a b : Int)
    (hzl : zls = intRange a b) (x : Int) (hx : x ∈ initSetOf iz zls)
    (hnx : x ∉ zls) :
    init_zoom_levels_of iz zls = .error .configError := by
  cases iz with
  | noneArg => exact absurd hx hnx
  | intArg z =>
    have hxz : x = z := by simpa [initSetOf] using hx
    subst hxz
    show (if x ∈ zls then Except.ok [x] else Except.error PyErr.configError) = _
    rw [if_neg hnx]
  | listArg l =>
    cases l with
    | nil => simp [initSetOf] at hx
    | cons h t =>
      show (if (h :: t).length ≤ 2 then _ else _) = _
      by_cases hlen : (h :: t).length ≤ 2
      · rw [if_pos hlen]
        have hx' := (mem_intRange (x := x)).mp (by simpa [initSetOf] using hx)
        have hor : (t.foldl min h) ∉ zls ∨ (t.foldl max h) ∉ zls := by
          subst hzl
          by_contra hcon
          push_neg at hcon
          obtain ⟨hmn, hmx⟩ := hcon
          rw [mem_intRange] at hmn hmx
          exact hnx (mem_intRange.mpr (by omega))
        simp only [hor, if_true]
      · rw [if_neg hlen]

theorem c8_init_zoom_subset_witness :
    zoom_levels_of (.dict (.cons "min" (.val (.int 1))
        (.cons "max" (.val (.int 5)) .nil))) = .ok [1, 2, 3, 4, 5] ∧
      [1, 2, 3, 4, 5] = intRange 1 6 ∧
      (7 : Int) ∈ initSetOf (.intArg 7) [1, 2, 3, 4, 5] ∧
      init_zoom_levels_of (.intArg 7) [1, 2, 3, 4, 5] = .error .configError :=
  ⟨by decide, by decide, by decide,
   c8_init_zoom_subset (.intArg 7) [1, 2, 3, 4, 5] 1 6 (by decide) 7 (by decide)
     (by decide)⟩

/-! ### C9: output metatiling must not exceed process metatiling -/

/-- C9: with integer metatiling values, step (3) of `__init__` fails with a
`MapcheteConfigError` exactly when the output metatiling exceeds the
process metatiling, succeeds otherwise, and an unspecified output
metatiling defaults to the process metatiling (and passes). -/
theorem c9_metatiling_check (pd od : PList JAtom) (pm : Int)
    (hp : lookupP pd "metatiling" = some (.val (.int pm))) :
    (∀ om : Int, lookupP od "metatiling" = some (.val (.int om)) →
       (om > pm → pyramids_check pd od = .error .configError) ∧
       (om ≤ pm → pyramids_check pd od = .ok (pm, om))) ∧
    (lookupP od "metatiling" = none → pyramids_check pd od = .ok (pm, pm)) := by
  constructor
  · intro om ho
    have heval : pyramids_check pd od =
        (if om > pm then .error .configError else .ok (pm, om)) := by
      unfold pyramids_check metatilingGet
      rw [hp, ho]
    constructor
    · intro hgt
      rw [heval, if_pos hgt]
    · intro hle
      rw [heval, if_neg (by omega)]
  · intro ho
    have heval : pyramids_check pd od =
        (if pm > pm then .error .configError else .ok (pm, pm)) := by
      unfold pyramids_check metatilingGet
      rw [hp, ho]
    rw [heval, if_neg (by omega)]

theorem c9_metatiling_check_witness :
    pyramids_check (.cons "metatiling" (.val (.int 2)) .nil)
        (.cons "metatiling" (.val (.int 4)) .nil) = .error .configError ∧
      pyramids_check (.cons "metatiling" (.val (.int 4)) .nil)
        (.cons "metatiling" (.val (.int 2)) .nil) = .ok (4, 2) ∧
      pyramids_check (.cons "metatiling" (.val (.int 4)) .nil) .nil = .ok (4, 4) :=
  ⟨((c9_metatiling_check (.cons "metatiling" (.val (.int 2)) .nil)
      (.cons "metatiling" (.val (.int 4)) .nil) 2 (by decide)).1 4
      (by decide)).1 (by decide),
   ((c9_metatiling_check (.cons "metatiling" (.val (.int 4)) .nil)
      (.cons "metatiling" (.val (.int 2)) .nil) 4 (by decide)).1 2
      (by decide)).2 (by decide),
   (c9_metatiling_check (.cons "metatiling" (.val (.int 4)) .nil) .nil 4
      (by decide)).2 (by decide)⟩

/-! ### C10: `min > max` declares an empty zoom range, not an error -/

/-- C10: a `zoom_levels` mapping with integer `min > max` passes validation
and yields the empty declared range (`range(min, max+1)` is empty); with no
`zoom` argument the initialized set is the same empty list, and the
per-zoom parameters of an empty zoom list are computed without error. -/
theorem c10_min_gt_max_empty (mn mx : Int) (h : mx < mn) :
    zoom_levels_of (.dict (.cons "min" (.val (.int mn))
        (.cons "max" (.val (.int mx)) .nil))) = .ok [] ∧
      init_zoom_levels_of .noneArg [] = .ok [] ∧
      (∀ config : PList JAtom, raw_at_zoom config [] = .ok []) := by
  refine ⟨?_, rfl, fun _ => rfl⟩
  have hne : ¬ (mn = mx) := by omega
  have hr : intRange mn (mx + 1) = [] := intRange_eq_nil (by omega)
  simp only [zoom_levels_of, lookupP, String.reduceEq, reduceIte]
  rw [if_neg hne, hr]

theorem c10_min_gt_max_empty_witness :
    (1 : Int) < 5 ∧
      zoom_levels_of (.dict (.cons "min" (.val (.int 5))
        (.cons "max" (.val (.int 1)) .nil))) = .ok [] :=
  ⟨by decide, (c10_min_gt_max_empty 5 1 (by decide)).1⟩

/-! ### C3: `get_hash` identity and key order -/

theorem strData_inj {a b : String} (h : a.data = b.data) : a = b := by
  cases a
  cases b
  exact congrArg String.mk h

theorem escChar_simple (c : Char) (h1 : 32 ≤ c.toNat) (h2 : c.toNat ≤ 126)
    (h3 : c ≠ '"') (h4 : c ≠ '\\') : escChar c = [c] := by
  have e10 : Char.toNat '\n' = 10 := rfl
  have e9 : Char.toNat '\t' = 9 := rfl
  have e13 : Char.toNat '\x0d' = 13 := rfl
  have e8 : Char.toNat (Char.ofNat 8) = 8 := rfl
  have e12 : Char.toNat (Char.ofNat 12) = 12 := rfl
  have hn : c ≠ '\n' := fun he => by rw [he, e10] at h1; omega
  have ht : c ≠ '\t' := fun he => by rw [he, e9] at h1; omega
  have hr : c ≠ '\x0d' := fun he => by rw [he, e13] at h1; omega
  have hb : c ≠ Char.ofNat 8 := fun he => by rw [he, e8] at h1; omega
  have hf : c ≠ Char.ofNat 12 := fun he => by rw [he, e12] at h1; omega
  unfold escChar
  rw [if_neg h3, if_neg h4, if_neg hn, if_neg ht, if_neg hr, if_neg hb, if_neg hf,
    if_neg (by omega), if_pos (by omega)]

/-- Characters whose JSON escaping is the identity. -/
def simpleCharP (c : Char) : Prop :=
  32 ≤ c.toNat ∧ c.toNat ≤ 126 ∧ c ≠ '"' ∧ c ≠ '\\'

theorem escStr_simple (l : List Char) (h : ∀ c ∈ l, simpleCharP c) :
    escStr l = l := by
  induction l with
  | nil => rfl
  | cons c r ih =>
    obtain ⟨h1, h2, h3, h4⟩ := h c (List.mem_cons_self c r)
    unfold escStr
    rw [escChar_simple c h1 h2 h3 h4, ih (fun d hd => h d (List.mem_cons_of_mem c hd))]
    rfl

theorem simpleStrB_prop {s : String} (h : simpleStrB s = true) :
    ∀ c ∈ s.data, simpleCharP c := by
  intro c hc
  unfold simpleStrB at h
  rw [List.all_eq_true] at h
  have := h c hc
  simp only [Bool.and_eq_true, decide_eq_true_eq] at this
  exact ⟨this.1.1.1, this.1.1.2, this.1.2, this.2⟩

/-- Two quote-terminated segments with distinct quote-free prefixes never
form the same character list. -/
theorem quoteKeyNe (u : List Char) (r1 : List Char) :
    ∀ (v r2 : List Char), '"' ∉ u → '"' ∉ v → u ≠ v →
      u ++ '"' :: r1 ≠ v ++ '"' :: r2 := by
  induction u with
  | nil =>
    intro v r2 _ hv hne hc
    cases v with
    | nil => exact hne rfl
    | cons d vt =>
      rw [List.nil_append, List.cons_append] at hc
      injection hc with h1 _
      exact hv (h1 ▸ List.mem_cons_self d vt)
  | cons c ut ih =>
    intro v r2 hu hv hne hc
    cases v with
    | nil =>
      rw [List.nil_append, List.cons_append] at hc
      injection hc with h1 _
      exact hu (h1 ▸ List.mem_cons_self c ut)
    | cons d vt =>
      rw [List.cons_append, List.cons_append] at hc
      injection hc with h1 h2
      subst h1
      exact ih vt r2 (fun hm => hu (List.mem_cons_of_mem c hm))
        (fun hm => hv (List.mem_cons_of_mem c hm))
        (fun he => hne (by rw [he])) h2

/-- C3 counterexample: `{"a": 1, "b": 2}` and `{"b": 2, "a": 1}` are equal
as key-value sets (same keys up to order, same value at every key), yet
`get_hash` gives them different identities: `json.dumps` serializes in
insertion order, so the hashed strings differ. -/
theorem c3_counterexample :
    (lookupP c3DictAB "a" = lookupP c3DictBA "a" ∧
      lookupP c3DictAB "b" = lookupP c3DictBA "b" ∧
      keysOfP c3DictAB = ["a", "b"] ∧ keysOfP c3DictBA = ["b", "a"]) ∧
    get_hash (.dict c3DictAB) ≠ get_hash (.dict c3DictBA) :=
  ⟨by decide, by decide⟩

/-- C3 amended: `get_hash` computes the identity from the insertion-order
`json.dumps` serialization.  Structurally identical declarations *with the
same order* get equal identities, but the serialization is not canonical:
any two-entry mapping with distinct escape-free keys changes its identity
when its entries are swapped. -/
theorem c3_hash_order_sensitive (a b : String) (x y : JValue) (hab : a ≠ b)
    (ha : simpleStrB a = true) (hb : simpleStrB b = true) :
    (∀ v w : JValue, v = w → get_hash v = get_hash w) ∧
      get_hash (.dict (.cons a x (.cons b y .nil))) ≠
        get_hash (.dict (.cons b y (.cons a x .nil))) := by
  refine ⟨fun v w h => by rw [h], ?_⟩
  intro hc
  simp only [get_hash, Option.some.injEq] at hc
  unfold jsonDumps at hc
  injection hc with hl
  simp only [dumpEntries] at hl
  rw [escStr_simple a.data (simpleStrB_prop ha),
    escStr_simple b.data (simpleStrB_prop hb)] at hl
  simp only [List.cons_append, List.nil_append, List.append_assoc, List.append_nil,
    List.cons.injEq, true_and] at hl
  have hqa : '"' ∉ a.data := fun hm => ((simpleStrB_prop ha) '"' hm).2.2.1 rfl
  have hqb : '"' ∉ b.data := fun hm => ((simpleStrB_prop hb) '"' hm).2.2.1 rfl
  have hdne : a.data ≠ b.data := fun he => hab (strData_inj he)
  exact quoteKeyNe a.data _ b.data _ hqa hqb hdne hl

theorem c3_hash_order_sensitive_witness :
    ("a" : String) ≠ "b" ∧ simpleStrB "a" = true ∧ simpleStrB "b" = true ∧
      get_hash (.dict c3DictAB) ≠ get_hash (.dict c3DictBA) :=
  ⟨by decide, by decide, by decide,
   (c3_hash_order_sensitive "a" "b" (.val (.int 1)) (.val (.int 2)) (by decide)
     (by decide) (by decide)).2⟩

/-! ### C1: the flatten/unflatten round-trip

`_flatten_tree` produces one pair per leaf, keyed by the `/`-joined path;
`_unflatten_tree` re-inserts each pair segment by segment.  The round-trip
holds for well-formed trees of non-leaf nesting depth at most 2 and fails
at depth 3, where `_unflatten_tree` merges four-segment paths with a
shallow `dict.update` that drops earlier siblings. -/

theorem splitSlashChars_noSlash {u : List Char} (h : '/' ∉ u) :
    splitSlashChars u = [u] := by
  induction u with
  | nil => rfl
  | cons c r ih =>
    have hc : ¬ (c = '/') := fun he => h (he ▸ List.mem_cons_self c r)
    have hr : '/' ∉ r := fun hm => h (List.mem_cons_of_mem c hm)
    unfold splitSlashChars
    rw [if_neg hc, ih hr]

theorem splitSlashChars_append {u w : List Char} (h : '/' ∉ u) :
    splitSlashChars (u ++ '/' :: w) = u :: splitSlashChars w := by
  induction u with
  | nil =>
    rw [List.nil_append]
    conv_lhs => unfold splitSlashChars
    rw [if_pos rfl]
  | cons c r ih =>
    have hc : ¬ (c = '/') := fun he => h (he ▸ List.mem_cons_self c r)
    have hr : '/' ∉ r := fun hm => h (List.mem_cons_of_mem c hm)
    rw [List.cons_append]
    conv_lhs => unfold splitSlashChars
    rw [if_neg hc, ih hr]

theorem goodKeyB_ne_empty {k : String} (h : goodKeyB k = true) : k ≠ "" := by
  unfold goodKeyB at h
  rw [Bool.and_eq_true] at h
  intro he
  rw [he] at h
  exact Bool.noConfusion h.1

theorem goodKeyB_noSlash {k : String} (h : goodKeyB k = true) : '/' ∉ k.data := by
  unfold goodKeyB at h
  rw [Bool.and_eq_true] at h
  intro hm
  have := List.all_eq_true.mp h.2 '/' hm
  simp at this

theorem strEta (s : String) : String.mk s.data = s := rfl

theorem pySplit_one {k : String} (h : goodKeyB k = true) :
    pySplitSlash k = [k] := by
  unfold pySplitSlash
  rw [splitSlashChars_noSlash (goodKeyB_noSlash h)]
  rw [List.map_cons, List.map_nil, strEta]

theorem data_slash_append (a b : String) :
    (a ++ "/" ++ b).data = a.data ++ '/' :: b.data := by
  show a.data ++ ['/'] ++ b.data = a.data ++ '/' :: b.data
  rw [List.append_assoc]
  rfl

theorem pySplit_two {k k1 : String} (h : goodKeyB k = true) (h1 : goodKeyB k1 = true) :
    pySplitSlash (k ++ "/" ++ k1) = [k, k1] := by
  unfold pySplitSlash
  rw [data_slash_append, splitSlashChars_append (goodKeyB_noSlash h),
    splitSlashChars_noSlash (goodKeyB_noSlash h1)]
  rw [List.map_cons, List.map_cons, List.map_nil, strEta, strEta]

theorem pySplit_three {k k1 k2 : String} (h : goodKeyB k = true)
    (h1 : goodKeyB k1 = true) (h2 : goodKeyB k2 = true) :
    pySplitSlash (k ++ "/" ++ k1 ++ "/" ++ k2) = [k, k1, k2] := by
  unfold pySplitSlash
  have hd : (k ++ "/" ++ k1 ++ "/" ++ k2).data = k.data ++ '/' :: (k1.data ++ '/' :: k2.data) := by
    show k.data ++ ['/'] ++ k1.data ++ ['/'] ++ k2.data = _
    simp [List.append_assoc]
  rw [hd, splitSlashChars_append (goodKeyB_noSlash h)]
  rw [splitSlashChars_append (goodKeyB_noSlash h1),
    splitSlashChars_noSlash (goodKeyB_noSlash h2)]
  rw [List.map_cons, List.map_cons, List.map_cons, List.map_nil, strEta, strEta, strEta]

theorem slash_append_ne_empty (a b : String) : a ++ "/" ++ b ≠ "" := by
  intro he
  have : (a ++ "/" ++ b).data = [] := by rw [he]
  rw [data_slash_append] at this
  exact List.noConfusion (List.append_eq_nil.mp this).2

/-- Cancellation at the first separator: two slash-free segments followed by
empty-or-slash-headed tails agree iff the segments agree. -/
theorem segCancel : ∀ (u v t t' : List Char), '/' ∉ u → '/' ∉ v →
    (t = [] ∨ ∃ w, t = '/' :: w) → (t' = [] ∨ ∃ w, t' = '/' :: w) →
    u ++ t = v ++ t' → u = v := by
  intro u
  induction u with
  | nil =>
    intro v t t' _ hv ht ht' he
    cases v with
    | nil => rfl
    | cons d vt =>
      exfalso
      rw [List.nil_append, List.cons_append] at he
      rcases ht with h0 | ⟨w, hw⟩
      · rw [h0] at he
        exact List.noConfusion he
      · rw [hw] at he
        injection he with he1 _
        exact hv (he1 ▸ List.mem_cons_self d vt)
  | cons c ut ih =>
    intro v t t' hu hv ht ht' he
    cases v with
    | nil =>
      exfalso
      rw [List.nil_append, List.cons_append] at he
      rcases ht' with h0 | ⟨w, hw⟩
      · rw [h0] at he
        exact List.noConfusion he
      · rw [hw] at he
        injection he with he1 _
        exact hu (he1.symm ▸ List.mem_cons_self c ut)
    | cons d vt =>
      rw [List.cons_append, List.cons_append] at he
      injection he with he1 he2
      subst he1
      rw [ih vt t t' (fun hm => hu (List.mem_cons_of_mem c hm))
        (fun hm => hv (List.mem_cons_of_mem c hm)) ht ht' he2]

/- Stage B: PList append / assignment lemmas -/

theorem pAppend_nil {V : Type} (b : PList V) : pAppend .nil b = b := rfl

theorem pAppend_assoc {V : Type} : ∀ (a b c : PList V),
    pAppend (pAppend a b) c = pAppend a (pAppend b c)
  | .nil, _, _ => rfl
  | .cons k v r, b, c => by
    show PList.cons k v (pAppend (pAppend r b) c) = PList.cons k v (pAppend r (pAppend b c))
    rw [pAppend_assoc r b c]

theorem pAppend_single_cons {V : Type} (k : String) (v : PTree V) (b : PList V) :
    pAppend (.cons k v .nil) b = .cons k v b := rfl

theorem hasKey_pAppend {V : Type} : ∀ (a b : PList V) (key : String),
    hasKey (pAppend a b) key = (hasKey a key || hasKey b key)
  | .nil, _, _ => rfl
  | .cons k v r, b, key => by
    show (decide (k = key) || hasKey (pAppend r b) key) = _
    rw [hasKey_pAppend r b key]
    show _ = (decide (k = key) || hasKey r key || hasKey b key)
    rw [Bool.or_assoc]

theorem hasKey_cons {V : Type} (k key : String) (v : PTree V) (r : PList V) :
    hasKey (.cons k v r) key = (decide (k = key) || hasKey r key) := rfl

theorem hasKey_cons_iff {V : Type} {k key : String} {v : PTree V} {r : PList V} :
    hasKey (.cons k v r) key = true ↔ k = key ∨ hasKey r key = true := by
  show (decide (k = key) || hasKey r key) = true ↔ _
  rw [Bool.or_eq_true, decide_eq_true_eq]

theorem hasKey_single_false {V : Type} {k key : String} {v : PTree V}
    (h : ¬ (k = key)) : hasKey (.cons k v .nil) key = false := by
  show (decide (k = key) || hasKey (.nil : PList V) key) = false
  simp [h, hasKey]

theorem lookupP_not_hasKey {V : Type} : ∀ (d : PList V) (key : String),
    hasKey d key = false → lookupP d key = none
  | .nil, _, _ => rfl
  | .cons k v r, key, h => by
    show (if k = key then some v else lookupP r key) = none
    rw [hasKey_cons, Bool.or_eq_false_iff] at h
    rw [if_neg (by simpa using h.1), lookupP_not_hasKey r key h.2]

theorem lookupP_pAppend_right {V : Type} : ∀ (a b : PList V) (key : String),
    hasKey a key = false → lookupP (pAppend a b) key = lookupP b key
  | .nil, _, _, _ => rfl
  | .cons k v r, b, key, h => by
    rw [hasKey_cons, Bool.or_eq_false_iff] at h
    show (if k = key then some v else lookupP (pAppend r b) key) = _
    rw [if_neg (by simpa using h.1), lookupP_pAppend_right r b key h.2]

theorem lookupP_pAppend_single {V : Type} (a : PList V) (k : String) (x : PTree V)
    (b : PList V) (h : hasKey a k = false) :
    lookupP (pAppend a (.cons k x b)) k = some x := by
  rw [lookupP_pAppend_right a _ k h]
  show (if k = k then some x else lookupP b k) = some x
  rw [if_pos rfl]

theorem setKeyP_fresh {V : Type} : ∀ (d : PList V) (k : String) (v : PTree V),
    hasKey d k = false → setKeyP d k v = pAppend d (.cons k v .nil)
  | .nil, _, _, _ => rfl
  | .cons k0 v0 r, k, v, h => by
    rw [hasKey_cons, Bool.or_eq_false_iff] at h
    show (if k0 = k then PList.cons k v r else PList.cons k0 v0 (setKeyP r k v)) = _
    rw [if_neg (by simpa using h.1), setKeyP_fresh r k v h.2]
    rfl

theorem setKeyP_pAppend_right {V : Type} : ∀ (a b : PList V) (k : String) (v : PTree V),
    hasKey a k = false → setKeyP (pAppend a b) k v = pAppend a (setKeyP b k v)
  | .nil, _, _, _, _ => rfl
  | .cons k0 v0 r, b, k, v, h => by
    rw [hasKey_cons, Bool.or_eq_false_iff] at h
    show (if k0 = k then PList.cons k v (pAppend r b)
        else PList.cons k0 v0 (setKeyP (pAppend r b) k v)) = _
    rw [if_neg (by simpa using h.1), setKeyP_pAppend_right r b k v h.2]
    rfl

theorem setKeyP_cons_head {V : Type} (k : String) (x v : PTree V) (b : PList V) :
    setKeyP (.cons k x b) k v = .cons k v b := by
  show (if k = k then PList.cons k v b else _) = _
  rw [if_pos rfl]

theorem pyUpdateP_single {V : Type} (cur : PList V) (k : String) (v : PTree V) :
    pyUpdateP cur (.cons k v .nil) = setKeyP cur k v := rfl


/- Stage C: flatten structure, path shapes, path freshness -/

theorem flattenList_nil {V : Type} (op : Option String) :
    flattenList (V := V) .nil op = [] := rfl

theorem flattenList_cons {V : Type} (k : String) (v : PTree V) (r : PList V)
    (op : Option String) :
    flattenList (.cons k v r) op = flattenVal v (newPathStr op k) ++ flattenList r op := by
  cases op <;> rfl

theorem flattenVal_leaf {V : Type} {v : PTree V} (h : leafB v = true) (np : String) :
    flattenVal v np = [(np, v)] := by
  cases v with
  | val a => rfl
  | dict sub =>
    unfold flattenVal
    rw [if_pos (by exact h)]

theorem flattenVal_nonleaf {V : Type} {sub : PList V}
    (h : hasKey sub "format" = false) (np : String) :
    flattenVal (.dict sub) np = flattenList sub (some np) := by
  unfold flattenVal
  rw [h]
  rfl

/-- The character form of the `new_path` computed by `_flatten_tree`. -/
theorem newPathStr_data (op : Option String) (k : String) :
    (newPathStr op k).data = preChars op ++ k.data := by
  cases op with
  | none => rfl
  | some p =>
    by_cases h : p = ""
    · subst h
      show (if ("" : String) ≠ "" then "" ++ "/" ++ k else k).data = _
      rw [if_neg (by simp), preChars, if_neg (by simp)]
      rfl
    · show (if p ≠ "" then p ++ "/" ++ k else k).data = _
      rw [if_pos h, preChars, if_pos h, data_slash_append, List.append_assoc]
      rfl

theorem newPathStr_ne_empty {op : Option String} {k : String} (h : k ≠ "") :
    newPathStr op k ≠ "" := by
  intro he
  have hd := congrArg String.data he
  rw [newPathStr_data] at hd
  have : k.data = [] := (List.append_eq_nil.mp (by simpa using hd)).2
  exact h (strData_inj this)

mutual
theorem flattenVal_shape {V : Type} : ∀ (v : PTree V) (np : String) (π : String)
    (w : PTree V), np ≠ "" → (π, w) ∈ flattenVal v np →
    ∃ t, (t = [] ∨ ∃ q, t = '/' :: q) ∧ π.data = np.data ++ t
  | .val a, np, π, w, _, hm => by
    rw [show flattenVal (.val a) np = [(np, .val a)] from rfl] at hm
    rcases List.mem_singleton.mp hm with he
    injection he with he1 _
    subst he1
    exact ⟨[], Or.inl rfl, (List.append_nil _).symm⟩
  | .dict sub, np, π, w, hnp, hm => by
    by_cases hf : hasKey sub "format" = true
    · rw [flattenVal_leaf (by simpa [leafB] using hf) np] at hm
      rcases List.mem_singleton.mp hm with he
      injection he with he1 _
      subst he1
      exact ⟨[], Or.inl rfl, (List.append_nil _).symm⟩
    · rw [flattenVal_nonleaf (by simpa using hf) np] at hm
      obtain ⟨q, hq⟩ := flattenList_shape sub np π w hnp hm
      exact ⟨'/' :: q, Or.inr ⟨q, rfl⟩, hq⟩

theorem flattenList_shape {V : Type} : ∀ (e : PList V) (np : String) (π : String)
    (w : PTree V), np ≠ "" → (π, w) ∈ flattenList e (some np) →
    ∃ q, π.data = np.data ++ '/' :: q
  | .nil, np, π, w, _, hm => by
    rw [flattenList_nil] at hm
    exact absurd hm (List.not_mem_nil _)
  | .cons k v r, np, π, w, hnp, hm => by
    rw [flattenList_cons] at hm
    rcases List.mem_append.mp hm with hm1 | hm2
    · by_cases hk : k = ""
      · subst hk
        obtain ⟨t, ht, hd⟩ := by
          refine flattenVal_shape v (newPathStr (some np) "") π w ?_ hm1
          show (if np ≠ "" then np ++ "/" ++ "" else "") ≠ ""
          rw [if_pos hnp]
          exact slash_append_ne_empty np ""
        rw [newPathStr_data] at hd
        rw [show ("" : String).data = [] from rfl, List.append_nil] at hd
        rw [show preChars (some np) = np.data ++ ['/'] from by
          rw [preChars, if_pos hnp]] at hd
        rcases ht with h0 | ⟨q, hq⟩
        · subst h0
          exact ⟨[], by simpa using hd⟩
        · subst hq
          exact ⟨'/' :: q, by rw [hd]; simp⟩
      · obtain ⟨t, ht, hd⟩ :=
          flattenVal_shape v (newPathStr (some np) k) π w (newPathStr_ne_empty hk) hm1
        rw [newPathStr_data] at hd
        rw [show preChars (some np) = np.data ++ ['/'] from by
          rw [preChars, if_pos hnp]] at hd
        rcases ht with h0 | ⟨q, hq⟩
        · subst h0
          rw [List.append_nil, List.append_assoc] at hd
          exact ⟨k.data, hd⟩
        · subst hq
          rw [List.append_assoc] at hd
          exact ⟨k.data ++ '/' :: q, by rw [hd]; simp⟩
    · exact flattenList_shape r np π w hnp hm2
end

theorem pathFreshB_cons {V : Type} (k : String) (v : PTree V)
    (r : List (String × PTree V)) :
    pathFreshB ((k, v) :: r) = (!(r.any (fun kv => kv.1 = k)) && pathFreshB r) := rfl

theorem pathFreshB_append_of {V : Type} :
    ∀ {l1 l2 : List (String × PTree V)}, pathFreshB l1 = true → pathFreshB l2 = true →
      (∀ kv1 ∈ l1, ∀ kv2 ∈ l2, kv1.1 ≠ kv2.1) → pathFreshB (l1 ++ l2) = true := by
  intro l1
  induction l1 with
  | nil =>
    intro l2 _ h2 _
    exact h2
  | cons kv r ih =>
    intro l2 h1 h2 hcross
    obtain ⟨k, v⟩ := kv
    rw [pathFreshB_cons, Bool.and_eq_true] at h1
    rw [List.cons_append, pathFreshB_cons, Bool.and_eq_true]
    constructor
    · rw [Bool.not_eq_true', List.any_eq_false]
      intro kv2 hm2
      rw [List.mem_append] at hm2
      rcases hm2 with hm2 | hm2
      · have := h1.1
        rw [Bool.not_eq_true', List.any_eq_false] at this
        exact this kv2 hm2
      · simpa using (hcross (k, v) (List.mem_cons_self _ _) kv2 hm2).symm
    · exact ih h1.2 h2 (fun kv1 hm1 kv2 hm2 =>
        hcross kv1 (List.mem_cons_of_mem _ hm1) kv2 hm2)

theorem goodKeyB_of_hasKey {V : Type} : ∀ {e : PList V} {k : String},
    goodEntriesB e = true → hasKey e k = true → goodKeyB k = true
  | .nil, k, _, hx => Bool.noConfusion hx
  | .cons k0 v0 r0, k, hg, hx => by
    unfold goodEntriesB at hg
    rw [Bool.and_eq_true, Bool.and_eq_true, Bool.and_eq_true] at hg
    rw [hasKey_cons, Bool.or_eq_true, decide_eq_true_eq] at hx
    rcases hx with hx | hx
    · exact hx ▸ hg.1.1.1
    · exact goodKeyB_of_hasKey hg.2 hx

theorem flattenList_key_shape {V : Type} : ∀ (e : PList V) (op : Option String)
    (π : String) (w : PTree V), goodEntriesB e = true →
    (π, w) ∈ flattenList e op →
    ∃ k', hasKey e k' = true ∧
      ∃ t, (t = [] ∨ ∃ q, t = '/' :: q) ∧ π.data = preChars op ++ (k'.data ++ t)
  | .nil, op, π, w, _, hm => by
    rw [flattenList_nil] at hm
    exact absurd hm (List.not_mem_nil _)
  | .cons k v r, op, π, w, hg, hm => by
    unfold goodEntriesB at hg
    rw [Bool.and_eq_true, Bool.and_eq_true, Bool.and_eq_true] at hg
    obtain ⟨⟨⟨hgk, hfr⟩, hgv⟩, hgr⟩ := hg
    rw [flattenList_cons] at hm
    rcases List.mem_append.mp hm with hm1 | hm2
    · obtain ⟨t, ht, hd⟩ := flattenVal_shape v _ π w
        (newPathStr_ne_empty (goodKeyB_ne_empty hgk)) hm1
      rw [newPathStr_data, List.append_assoc] at hd
      exact ⟨k, by rw [hasKey_cons]; simp, t, ht, hd⟩
    · obtain ⟨k', hk', t, ht, hd⟩ := flattenList_key_shape r op π w hgr hm2
      exact ⟨k', by rw [hasKey_cons]; simp [hk'], t, ht, hd⟩

mutual
theorem flattenVal_fresh {V : Type} : ∀ (v : PTree V) (np : String),
    goodValB v = true → pathFreshB (flattenVal v np) = true
  | .val a, np, _ => rfl
  | .dict sub, np, hg => by
    by_cases hf : hasKey sub "format" = true
    · rw [flattenVal_leaf (by simpa [leafB] using hf) np]
      rfl
    · rw [flattenVal_nonleaf (by simpa using hf) np]
      unfold goodValB at hg
      rw [Bool.not_eq_true] at hf
      rw [if_neg (by simp [hf]), Bool.and_eq_true] at hg
      exact flattenList_fresh sub (some np) hg.2

theorem flattenList_fresh {V : Type} : ∀ (e : PList V) (op : Option String),
    goodEntriesB e = true → pathFreshB (flattenList e op) = true
  | .nil, op, _ => rfl
  | .cons k v r, op, hg => by
    unfold goodEntriesB at hg
    rw [Bool.and_eq_true, Bool.and_eq_true, Bool.and_eq_true] at hg
    obtain ⟨⟨⟨hgk, hfr⟩, hgv⟩, hgr⟩ := hg
    rw [flattenList_cons]
    apply pathFreshB_append_of (flattenVal_fresh v _ hgv) (flattenList_fresh r op hgr)
    intro kv1 hm1 kv2 hm2
    obtain ⟨π1, w1⟩ := kv1
    obtain ⟨π2, w2⟩ := kv2
    obtain ⟨t1, ht1, hd1⟩ := flattenVal_shape v _ π1 w1
      (newPathStr_ne_empty (goodKeyB_ne_empty hgk)) hm1
    rw [newPathStr_data, List.append_assoc] at hd1
    obtain ⟨k', hk', t2, ht2, hd2⟩ := flattenList_key_shape r op π2 w2 hgr hm2
    intro he
    have hde : π1.data = π2.data := congrArg String.data (he : π1 = π2)
    rw [hd1, hd2] at hde
    have hck := List.append_cancel_left hde
    have hkk : k.data = k'.data :=
      segCancel k.data k'.data t1 t2 (goodKeyB_noSlash hgk)
        (goodKeyB_noSlash (goodKeyB_of_hasKey hgr hk')) ht1 ht2 hck
    have hkeq : k = k' := strData_inj hkk
    subst hkeq
    rw [Bool.not_eq_true', hk'] at hfr
    exact Bool.noConfusion hfr
end

/- Stage D: processing lemmas for unflattening -/

theorem pAppend_nil_right {V : Type} : ∀ (a : PList V), pAppend a .nil = a
  | .nil => rfl
  | .cons k v r => by
    show PList.cons k v (pAppend r .nil) = _
    rw [pAppend_nil_right r]

theorem processPairs_cons {V : Type} (t : PList V) (k : String) (v : PTree V)
    (l : List (String × PTree V)) :
    processPairs t ((k, v) :: l) =
      match insertSegs t (pySplitSlash k) v with
      | none => none
      | some t2 => processPairs t2 l := rfl

theorem processPairs_append {V : Type} : ∀ (A B : List (String × PTree V)) (t : PList V),
    processPairs t (A ++ B) =
      match processPairs t A with
      | none => none
      | some t2 => processPairs t2 B
  | [], _, _ => rfl
  | (k, v) :: r, B, t => by
    rw [List.cons_append, processPairs_cons, processPairs_cons]
    cases insertSegs t (pySplitSlash k) v with
    | none => rfl
    | some t2 =>
      show processPairs t2 (r ++ B) = _
      rw [processPairs_append r B t2]

theorem depthV_zero_leaf {V : Type} {v : PTree V} (h : depthV v = 0) :
    leafB v = true := by
  cases v with
  | val a => rfl
  | dict sub =>
    unfold depthV at h
    by_cases hf : hasKey sub "format" = true
    · simpa [leafB] using hf
    · rw [if_neg (by simpa using hf)] at h
      exact absurd h (Nat.succ_ne_zero _)

theorem goodEntriesB_cons_iff {V : Type} {k : String} {v : PTree V} {r : PList V} :
    goodEntriesB (.cons k v r) = true ↔
      goodKeyB k = true ∧ hasKey r k = false ∧ goodValB v = true ∧ goodEntriesB r = true := by
  show (goodKeyB k && !(hasKey r k) && goodValB v && goodEntriesB r) = true ↔ _
  rw [Bool.and_eq_true, Bool.and_eq_true, Bool.and_eq_true, Bool.not_eq_true']
  tauto

theorem depthE_cons_le {V : Type} {k : String} {v : PTree V} {r : PList V} {n : Nat}
    (h : depthE (.cons k v r) ≤ n) : depthV v ≤ n ∧ depthE r ≤ n := by
  have : max (depthV v) (depthE r) ≤ n := h
  exact ⟨le_trans (le_max_left _ _) this, le_trans (le_max_right _ _) this⟩

theorem newPathStr_some {p : String} (hp : p ≠ "") (u : String) :
    newPathStr (some p) u = p ++ "/" ++ u := by
  show (if p ≠ "" then p ++ "/" ++ u else u) = _
  rw [if_pos hp]

theorem lookupP_cons_self {V : Type} (k : String) (v : PTree V) (r : PList V) :
    lookupP (.cons k v r) k = some v := by
  show (if k = k then some v else lookupP r k) = some v
  rw [if_pos rfl]

theorem hasKey_pAppend_single_self {V : Type} (d : PList V) (s : String) (x : PTree V) :
    hasKey (pAppend d (.cons s x .nil)) s = true := by
  rw [hasKey_pAppend]
  show (hasKey d s || (decide (s = s) || false)) = true
  simp

/-- Inserting a three-segment path `k/s/u` into a tree whose last entry is the
partially rebuilt group `k ↦ {… , s ↦ cur}` merges `u ↦ w` into `cur`. -/
theorem insertSegs3_merge {V : Type} (acc0 d0 cur : PList V) (k s u : String)
    (w : PTree V) (hk : hasKey acc0 k = false) (hs : hasKey d0 s = false)
    (hu : hasKey cur u = false) :
    insertSegs (pAppend acc0 (.cons k (.dict (pAppend d0 (.cons s (.dict cur) .nil))) .nil))
      [k, s, u] w =
      some (pAppend acc0 (.cons k
        (.dict (pAppend d0 (.cons s (.dict (pAppend cur (.cons u w .nil))) .nil))) .nil)) := by
  have hbr : insertSegs (V := V) .nil [s, u] w =
      some (.cons s (.dict (.cons u w .nil)) .nil) := rfl
  have hlk : lookupP (pAppend acc0 (.cons k (.dict (pAppend d0 (.cons s (.dict cur) .nil))) .nil)) k
      = some (.dict (pAppend d0 (.cons s (.dict cur) .nil))) :=
    lookupP_pAppend_single acc0 k _ .nil hk
  have hls : lookupP (pAppend d0 (.cons s (.dict cur) .nil)) s = some (.dict cur) :=
    lookupP_pAppend_single d0 s _ .nil hs
  have hhs : hasKey (pAppend d0 (.cons s (.dict cur) .nil)) s = true :=
    hasKey_pAppend_single_self d0 s _
  unfold insertSegs
  rw [hbr]
  simp only [hlk, hls, hhs, lookupP_cons_self, if_true]
  rw [pyUpdateP_single, setKeyP_fresh cur u w hu,
    setKeyP_pAppend_right d0 _ s _ hs, setKeyP_cons_head,
    setKeyP_pAppend_right acc0 _ k _ hk, setKeyP_cons_head]

/-- Inserting a two-segment path `k/s` into a tree whose last entry is the
partially rebuilt group `k ↦ cur` appends `s ↦ w` inside the group. -/
theorem insertSegs2_set {V : Type} (acc0 cur : PList V) (k s : String) (w : PTree V)
    (hk : hasKey acc0 k = false) (hs : hasKey cur s = false) :
    insertSegs (pAppend acc0 (.cons k (.dict cur) .nil)) [k, s] w =
      some (pAppend acc0 (.cons k (.dict (pAppend cur (.cons s w .nil))) .nil)) := by
  have hbr : insertSegs (V := V) .nil [s] w = some (.cons s w .nil) := rfl
  have hlk : lookupP (pAppend acc0 (.cons k (.dict cur) .nil)) k = some (.dict cur) :=
    lookupP_pAppend_single acc0 k _ .nil hk
  unfold insertSegs
  rw [hbr]
  simp only [hlk, lookupP_cons_self, hs, Bool.false_eq_true, if_false]
  rw [setKeyP_fresh cur s w hs, setKeyP_pAppend_right acc0 _ k _ hk, setKeyP_cons_head]

/-- Inserting a three-segment path `k/s/u` when the group `k ↦ cur` exists but
`s` is not yet present in it: a fresh sub-dict `{u ↦ w}` is appended at `s`. -/
theorem insertSegs3_create {V : Type} (acc0 cur : PList V) (k s u : String)
    (w : PTree V) (hk : hasKey acc0 k = false) (hs : hasKey cur s = false) :
    insertSegs (pAppend acc0 (.cons k (.dict cur) .nil)) [k, s, u] w =
      some (pAppend acc0 (.cons k
        (.dict (pAppend cur (.cons s (.dict (.cons u w .nil)) .nil))) .nil)) := by
  have hbr : insertSegs (V := V) .nil [s, u] w =
      some (.cons s (.dict (.cons u w .nil)) .nil) := rfl
  have hlk : lookupP (pAppend acc0 (.cons k (.dict cur) .nil)) k = some (.dict cur) :=
    lookupP_pAppend_single acc0 k _ .nil hk
  unfold insertSegs
  rw [hbr]
  simp only [hlk, lookupP_cons_self, hs, Bool.false_eq_true, if_false]
  rw [setKeyP_fresh cur s _ hs, setKeyP_pAppend_right acc0 _ k _ hk, setKeyP_cons_head]

/-- Inserting a two-segment path `k/s` when the group `k` is absent creates
the entry `k ↦ {s ↦ w}` at the end of the tree. -/
theorem insertSegs2_create_top {V : Type} (acc : PList V) (k s : String) (w : PTree V)
    (hk : hasKey acc k = false) :
    insertSegs acc [k, s] w =
      some (pAppend acc (.cons k (.dict (.cons s w .nil)) .nil)) := by
  have hbr : insertSegs (V := V) .nil [s] w = some (.cons s w .nil) := rfl
  have hlk : lookupP acc k = none := lookupP_not_hasKey acc k hk
  unfold insertSegs
  rw [hbr]
  simp only [hlk]
  rw [setKeyP_fresh acc k _ hk]

/-- Inserting a three-segment path `k/s/u` when the group `k` is absent creates
the entry `k ↦ {s ↦ {u ↦ w}}` at the end of the tree. -/
theorem insertSegs3_create_top {V : Type} (acc : PList V) (k s u : String)
    (w : PTree V) (hk : hasKey acc k = false) :
    insertSegs acc [k, s, u] w =
      some (pAppend acc (.cons k (.dict (.cons s (.dict (.cons u w .nil)) .nil)) .nil)) := by
  have hbr : insertSegs (V := V) .nil [s, u] w =
      some (.cons s (.dict (.cons u w .nil)) .nil) := rfl
  have hlk : lookupP acc k = none := lookupP_not_hasKey acc k hk
  unfold insertSegs
  rw [hbr]
  simp only [hlk]
  rw [setKeyP_fresh acc k _ hk]

/-- Inserting a one-segment path appends the fresh key at the end. -/
theorem insertSegs1_fresh {V : Type} (acc : PList V) (k : String) (w : PTree V)
    (hk : hasKey acc k = false) :
    insertSegs acc [k] w = some (pAppend acc (.cons k w .nil)) := by
  show some (setKeyP acc k w) = _
  rw [setKeyP_fresh acc k w hk]

/-- Processing the flattened pairs of a depth-0 entry list `e2` rooted at
`k/s` merges `e2` entry by entry into the partial sub-dict `cur`. -/
theorem procRun3 {V : Type} : ∀ (e2 : PList V) (acc0 d0 cur : PList V) (k s : String),
    goodKeyB k = true → goodKeyB s = true →
    goodEntriesB e2 = true → depthE e2 = 0 →
    hasKey acc0 k = false → hasKey d0 s = false →
    (∀ key, hasKey e2 key = true → hasKey cur key = false) →
    processPairs
      (pAppend acc0 (.cons k (.dict (pAppend d0 (.cons s (.dict cur) .nil))) .nil))
      (flattenList e2 (some (k ++ "/" ++ s))) =
      some (pAppend acc0 (.cons k
        (.dict (pAppend d0 (.cons s (.dict (pAppend cur e2)) .nil))) .nil))
  | .nil, acc0, d0, cur, k, s, _, _, _, _, _, _, _ => by
    rw [flattenList_nil, pAppend_nil_right]
    rfl
  | .cons u w r, acc0, d0, cur, k, s, hgk, hgs, hge, hde, hk, hs, hfresh => by
    obtain ⟨hgu, hru, hgw, hgr⟩ := goodEntriesB_cons_iff.mp hge
    have hdv : depthV w = 0 ∧ depthE r = 0 := by
      have := Nat.max_eq_zero_iff.mp hde
      exact this
    have hlw : leafB w = true := depthV_zero_leaf hdv.1
    rw [flattenList_cons,
      newPathStr_some (slash_append_ne_empty k s) u,
      flattenVal_leaf hlw, List.singleton_append, processPairs_cons,
      pySplit_three hgk hgs hgu]
    have hcu : hasKey cur u = false := hfresh u (hasKey_cons_iff.mpr (Or.inl rfl))
    rw [insertSegs3_merge acc0 d0 cur k s u w hk hs hcu]
    have hfresh2 : ∀ key, hasKey r key = true →
        hasKey (pAppend cur (.cons u w .nil)) key = false := by
      intro key hkey
      rw [hasKey_pAppend, Bool.or_eq_false_iff]
      refine ⟨hfresh key (hasKey_cons_iff.mpr (Or.inr hkey)), ?_⟩
      refine hasKey_single_false (fun he => ?_)
      rw [he] at hru
      rw [hkey] at hru
      exact Bool.noConfusion hru
    have ih := procRun3 r acc0 d0 (pAppend cur (.cons u w .nil)) k s
      hgk hgs hgr hdv.2 hk hs hfresh2
    show processPairs
        (pAppend acc0 (.cons k
          (.dict (pAppend d0 (.cons s (.dict (pAppend cur (.cons u w .nil))) .nil))) .nil))
        (flattenList r (some (k ++ "/" ++ s))) = _
    rw [ih, pAppend_assoc, pAppend_single_cons]

/-- Processing the flattened pairs of a depth ≤ 1 entry list `sub` rooted at
`k` merges `sub` entry by entry into the partial group dict `cur`. -/
theorem procRun2 {V : Type} : ∀ (sub : PList V) (acc0 cur : PList V) (k : String),
    goodKeyB k = true → goodEntriesB sub = true → depthE sub ≤ 1 →
    hasKey acc0 k = false →
    (∀ key, hasKey sub key = true → hasKey cur key = false) →
    processPairs (pAppend acc0 (.cons k (.dict cur) .nil)) (flattenList sub (some k)) =
      some (pAppend acc0 (.cons k (.dict (pAppend cur sub)) .nil))
  | .nil, acc0, cur, k, _, _, _, _, _ => by
    rw [flattenList_nil, pAppend_nil_right]
    rfl
  | .cons s w r, acc0, cur, k, hgk, hge, hde, hk, hfresh => by
    obtain ⟨hgs, hrs, hgw, hgr⟩ := goodEntriesB_cons_iff.mp hge
    obtain ⟨hdw, hdr⟩ := depthE_cons_le hde
    have hcs : hasKey cur s = false := hfresh s (hasKey_cons_iff.mpr (Or.inl rfl))
    have hfresh2 : ∀ (x : PTree V), ∀ key, hasKey r key = true →
        hasKey (pAppend cur (.cons s x .nil)) key = false := by
      intro x key hkey
      rw [hasKey_pAppend, Bool.or_eq_false_iff]
      refine ⟨hfresh key (hasKey_cons_iff.mpr (Or.inr hkey)), ?_⟩
      refine hasKey_single_false (fun he => ?_)
      rw [he, hkey] at hrs
      exact Bool.noConfusion hrs
    rw [flattenList_cons, newPathStr_some (goodKeyB_ne_empty hgk) s]
    by_cases hlw : leafB w = true
    · rw [flattenVal_leaf hlw, List.singleton_append, processPairs_cons,
        pySplit_two hgk hgs, insertSegs2_set acc0 cur k s w hk hcs]
      have ih := procRun2 r acc0 (pAppend cur (.cons s w .nil)) k
        hgk hgr hdr hk (hfresh2 w)
      show processPairs
          (pAppend acc0 (.cons k (.dict (pAppend cur (.cons s w .nil))) .nil))
          (flattenList r (some k)) = _
      rw [ih, pAppend_assoc, pAppend_single_cons]
    · -- w is a non-leaf sub-dict, necessarily of depth 0 and non-empty
      obtain ⟨sub2, rfl⟩ : ∃ sub2, w = PTree.dict sub2 := by
        cases w with
        | val a => exact absurd rfl hlw
        | dict sub2 => exact ⟨sub2, rfl⟩
      have hf2 : hasKey sub2 "format" = false := by
        rw [show leafB (PTree.dict sub2) = hasKey sub2 "format" from rfl] at hlw
        exact Bool.not_eq_true _ ▸ Bool.eq_false_iff.mpr hlw
      have hgood2 : isNilP sub2 = false ∧ goodEntriesB sub2 = true := by
        unfold goodValB at hgw
        rw [if_neg (by simp [hf2]), Bool.and_eq_true, Bool.not_eq_true'] at hgw
        exact hgw
      have hdep2 : depthE sub2 = 0 := by
        unfold depthV at hdw
        rw [if_neg (by simp [hf2])] at hdw
        omega
      obtain ⟨u0, w0, r2, rfl⟩ : ∃ u0 w0 r2, sub2 = PList.cons u0 w0 r2 := by
        cases sub2 with
        | nil => exact Bool.noConfusion hgood2.1
        | cons u0 w0 r2 => exact ⟨u0, w0, r2, rfl⟩
      obtain ⟨hgu0, hru0, hgw0, hgr2⟩ := goodEntriesB_cons_iff.mp hgood2.2
      have hdw0 : depthV w0 = 0 ∧ depthE r2 = 0 := Nat.max_eq_zero_iff.mp hdep2
      have hlw0 : leafB w0 = true := depthV_zero_leaf hdw0.1
      rw [flattenVal_nonleaf hf2, flattenList_cons,
        newPathStr_some (slash_append_ne_empty k s) u0, flattenVal_leaf hlw0,
        List.singleton_append, List.cons_append, processPairs_cons,
        pySplit_three hgk hgs hgu0,
        insertSegs3_create acc0 cur k s u0 w0 hk hcs]
      show processPairs
          (pAppend acc0 (.cons k
            (.dict (pAppend cur (.cons s (.dict (.cons u0 w0 .nil)) .nil))) .nil))
          (flattenList r2 (some (k ++ "/" ++ s)) ++ flattenList r (some k)) = _
      rw [processPairs_append]
      have hfr2 : ∀ key, hasKey r2 key = true →
          hasKey (PList.cons u0 w0 PList.nil) key = false := by
        intro key hkey
        refine hasKey_single_false (fun he => ?_)
        rw [he, hkey] at hru0
        exact Bool.noConfusion hru0
      rw [procRun3 r2 acc0 cur (.cons u0 w0 .nil) k s hgk hgs hgr2 hdw0.2 hk hcs hfr2]
      rw [pAppend_single_cons]
      have ih := procRun2 r acc0 (pAppend cur (.cons s (.dict (.cons u0 w0 r2)) .nil)) k
        hgk hgr hdr hk (hfresh2 (.dict (.cons u0 w0 r2)))
      show processPairs
          (pAppend acc0 (.cons k
            (.dict (pAppend cur (.cons s (.dict (.cons u0 w0 r2)) .nil))) .nil))
          (flattenList r (some k)) = _
      rw [ih, pAppend_assoc, pAppend_single_cons]

/-- Processing all flattened pairs of a good tree of depth ≤ 2 appends the
tree, group by group, to the accumulator. -/
theorem procTop {V : Type} : ∀ (d : PList V) (acc : PList V),
    goodEntriesB d = true → depthE d ≤ 2 →
    (∀ key, hasKey d key = true → hasKey acc key = false) →
    processPairs acc (flattenList d none) = some (pAppend acc d)
  | .nil, acc, _, _, _ => by
    rw [flattenList_nil, pAppend_nil_right]
    rfl
  | .cons k v r, acc, hge, hde, hfresh => by
    obtain ⟨hgk, hrk, hgv, hgr⟩ := goodEntriesB_cons_iff.mp hge
    obtain ⟨hdv, hdr⟩ := depthE_cons_le hde
    have hak : hasKey acc k = false := hfresh k (hasKey_cons_iff.mpr (Or.inl rfl))
    have hfresh2 : ∀ (x : PTree V), ∀ key, hasKey r key = true →
        hasKey (pAppend acc (.cons k x .nil)) key = false := by
      intro x key hkey
      rw [hasKey_pAppend, Bool.or_eq_false_iff]
      refine ⟨hfresh key (hasKey_cons_iff.mpr (Or.inr hkey)), ?_⟩
      refine hasKey_single_false (fun he => ?_)
      rw [he, hkey] at hrk
      exact Bool.noConfusion hrk
    rw [flattenList_cons, show newPathStr none k = k from rfl]
    by_cases hlv : leafB v = true
    · rw [flattenVal_leaf hlv, List.singleton_append, processPairs_cons,
        pySplit_one hgk, insertSegs1_fresh acc k v hak]
      have ih := procTop r (pAppend acc (.cons k v .nil)) hgr hdr (hfresh2 v)
      show processPairs (pAppend acc (.cons k v .nil)) (flattenList r none) = _
      rw [ih, pAppend_assoc, pAppend_single_cons]
    · obtain ⟨sub, rfl⟩ : ∃ sub, v = PTree.dict sub := by
        cases v with
        | val a => exact absurd rfl hlv
        | dict sub => exact ⟨sub, rfl⟩
      have hf2 : hasKey sub "format" = false := by
        rw [show leafB (PTree.dict sub) = hasKey sub "format" from rfl] at hlv
        exact Bool.eq_false_iff.mpr hlv
      have hgood2 : isNilP sub = false ∧ goodEntriesB sub = true := by
        unfold goodValB at hgv
        rw [if_neg (by simp [hf2]), Bool.and_eq_true, Bool.not_eq_true'] at hgv
        exact hgv
      have hdep2 : depthE sub ≤ 1 := by
        unfold depthV at hdv
        rw [if_neg (by simp [hf2])] at hdv
        omega
      obtain ⟨s0, w0, r1, rfl⟩ : ∃ s0 w0 r1, sub = PList.cons s0 w0 r1 := by
        cases sub with
        | nil => exact Bool.noConfusion hgood2.1
        | cons s0 w0 r1 => exact ⟨s0, w0, r1, rfl⟩
      obtain ⟨hgs0, hrs0, hgw0, hgr1⟩ := goodEntriesB_cons_iff.mp hgood2.2
      obtain ⟨hdw0, hdr1⟩ := depthE_cons_le hdep2
      have hfr1 : ∀ (x : PTree V), ∀ key, hasKey r1 key = true →
          hasKey (PList.cons s0 x PList.nil) key = false := by
        intro x key hkey
        refine hasKey_single_false (fun he => ?_)
        rw [he, hkey] at hrs0
        exact Bool.noConfusion hrs0
      rw [flattenVal_nonleaf hf2, flattenList_cons,
        newPathStr_some (goodKeyB_ne_empty hgk) s0]
      by_cases hlw0 : leafB w0 = true
      · -- first pair `k/s0 ↦ w0` creates the group, the rest merges into it
        rw [flattenVal_leaf hlw0, List.singleton_append, List.cons_append,
          processPairs_cons, pySplit_two hgk hgs0,
          insertSegs2_create_top acc k s0 w0 hak]
        show processPairs (pAppend acc (.cons k (.dict (.cons s0 w0 .nil)) .nil))
            (flattenList r1 (some k) ++ flattenList r none) = _
        rw [processPairs_append,
          procRun2 r1 acc (.cons s0 w0 .nil) k hgk hgr1 hdr1 hak (hfr1 w0),
          pAppend_single_cons]
        have ih := procTop r (pAppend acc (.cons k (.dict (.cons s0 w0 r1)) .nil))
          hgr hdr (hfresh2 (.dict (.cons s0 w0 r1)))
        show processPairs
            (pAppend acc (.cons k (.dict (.cons s0 w0 r1)) .nil))
            (flattenList r none) = _
        rw [ih, pAppend_assoc, pAppend_single_cons]
      · -- the first sub-entry is itself a non-leaf dict of depth 0
        obtain ⟨sub2, rfl⟩ : ∃ sub2, w0 = PTree.dict sub2 := by
          cases w0 with
          | val a => exact absurd rfl hlw0
          | dict sub2 => exact ⟨sub2, rfl⟩
        have hf3 : hasKey sub2 "format" = false := by
          rw [show leafB (PTree.dict sub2) = hasKey sub2 "format" from rfl] at hlw0
          exact Bool.eq_false_iff.mpr hlw0
        have hgood3 : isNilP sub2 = false ∧ goodEntriesB sub2 = true := by
          unfold goodValB at hgw0
          rw [if_neg (by simp [hf3]), Bool.and_eq_true, Bool.not_eq_true'] at hgw0
          exact hgw0
        have hdep3 : depthE sub2 = 0 := by
          unfold depthV at hdw0
          rw [if_neg (by simp [hf3])] at hdw0
          omega
        obtain ⟨u0, t0, r2, rfl⟩ : ∃ u0 t0 r2, sub2 = PList.cons u0 t0 r2 := by
          cases sub2 with
          | nil => exact Bool.noConfusion hgood3.1
          | cons u0 t0 r2 => exact ⟨u0, t0, r2, rfl⟩
        obtain ⟨hgu0, hru0, hgt0, hgr2⟩ := goodEntriesB_cons_iff.mp hgood3.2
        have hdt0 : depthV t0 = 0 ∧ depthE r2 = 0 := Nat.max_eq_zero_iff.mp hdep3
        have hlt0 : leafB t0 = true := depthV_zero_leaf hdt0.1
        have hfr2 : ∀ key, hasKey r2 key = true →
            hasKey (PList.cons u0 t0 PList.nil) key = false := by
          intro key hkey
          refine hasKey_single_false (fun he => ?_)
          rw [he, hkey] at hru0
          exact Bool.noConfusion hru0
        rw [flattenVal_nonleaf hf3, flattenList_cons,
          newPathStr_some (slash_append_ne_empty k s0) u0, flattenVal_leaf hlt0,
          List.singleton_append, List.cons_append, List.cons_append,
          List.append_assoc, processPairs_cons, pySplit_three hgk hgs0 hgu0,
          insertSegs3_create_top acc k s0 u0 t0 hak]
        show processPairs
            (pAppend acc (.cons k
              (.dict (pAppend .nil (.cons s0 (.dict (.cons u0 t0 .nil)) .nil))) .nil))
            (flattenList r2 (some (k ++ "/" ++ s0)) ++
              (flattenList r1 (some k) ++ flattenList r none)) = _
        rw [processPairs_append,
          procRun3 r2 acc .nil (.cons u0 t0 .nil) k s0 hgk hgs0 hgr2 hdt0.2 hak rfl hfr2,
          pAppend_nil, pAppend_single_cons]
        show processPairs
            (pAppend acc (.cons k
              (.dict (.cons s0 (.dict (.cons u0 t0 r2)) .nil)) .nil))
            (flattenList r1 (some k) ++ flattenList r none) = _
        rw [processPairs_append,
          procRun2 r1 acc (.cons s0 (.dict (.cons u0 t0 r2)) .nil) k hgk hgr1 hdr1 hak
            (hfr1 (.dict (.cons u0 t0 r2))),
          pAppend_single_cons]
        have ih := procTop r
          (pAppend acc (.cons k (.dict (.cons s0 (.dict (.cons u0 t0 r2)) r1)) .nil))
          hgr hdr (hfresh2 (.dict (.cons s0 (.dict (.cons u0 t0 r2)) r1)))
        show processPairs
            (pAppend acc (.cons k (.dict (.cons s0 (.dict (.cons u0 t0 r2)) r1)) .nil))
            (flattenList r none) = _
        rw [ih, pAppend_assoc, pAppend_single_cons]

/- Stage E: dict construction bridges and the round-trip theorem -/

theorem foldl_setKeyP_fresh {V : Type} : ∀ (l : List (String × PTree V)) (acc : PList V),
    pathFreshB l = true → (∀ kv ∈ l, hasKey acc kv.1 = false) →
    l.foldl (fun acc kv => setKeyP acc kv.1 kv.2) acc = pAppend acc (ofListP l)
  | [], acc, _, _ => (pAppend_nil_right acc).symm
  | (k, v) :: r, acc, hf, hacc => by
    rw [pathFreshB_cons, Bool.and_eq_true] at hf
    rw [List.foldl_cons]
    have hsk : setKeyP acc k v = pAppend acc (.cons k v .nil) :=
      setKeyP_fresh acc k v (hacc (k, v) (List.mem_cons_self _ _))
    rw [hsk]
    have hacc2 : ∀ kv ∈ r, hasKey (pAppend acc (.cons k v .nil)) kv.1 = false := by
      intro kv hm
      rw [hasKey_pAppend, Bool.or_eq_false_iff]
      refine ⟨hacc kv (List.mem_cons_of_mem _ hm), ?_⟩
      refine hasKey_single_false (fun he => ?_)
      have := hf.1
      rw [Bool.not_eq_true', List.any_eq_false] at this
      exact absurd he.symm (by simpa using this kv hm)
    rw [foldl_setKeyP_fresh r _ hf.2 hacc2, pAppend_assoc, pAppend_single_cons]
    rfl

theorem dictOfP_fresh {V : Type} (l : List (String × PTree V))
    (h : pathFreshB l = true) : dictOfP l = ofListP l := by
  unfold dictOfP
  rw [foldl_setKeyP_fresh l .nil h (fun kv _ => rfl), pAppend_nil]

theorem unflattenFold_ofListP {V : Type} : ∀ (l : List (String × PTree V)) (t : PList V),
    unflattenFold t (ofListP l) = processPairs t l
  | [], _ => rfl
  | (k, v) :: r, t => by
    show (match insertSegs t (pySplitSlash k) v with
      | none => none
      | some t2 => unflattenFold t2 (ofListP r)) = _
    rw [processPairs_cons]
    cases insertSegs t (pySplitSlash k) v with
    | none => rfl
    | some t2 =>
      show unflattenFold t2 (ofListP r) = _
      rw [unflattenFold_ofListP r t2]

/-- C1 (amended): the flatten/unflatten round-trip holds for every well-formed
tree whose non-leaf nesting depth is at most 2 (paths of at most three
segments). -/
theorem c1_roundtrip_depth2 (d : PList JAtom) (hg : goodEntriesB d = true)
    (hd : depthE d ≤ 2) :
    unflatten_tree (dictOfP (flatten_tree d)) = some d := by
  have hfresh : pathFreshB (flatten_tree d) = true := flattenList_fresh d none hg
  show unflattenFold .nil (dictOfP (flatten_tree d)) = some d
  rw [dictOfP_fresh _ hfresh, unflattenFold_ofListP]
  show processPairs .nil (flattenList d none) = some d
  rw [procTop d .nil hg hd (fun key _ => rfl), pAppend_nil]

/-- C1 counterexample: a well-formed tree of nesting depth 3 does not
round-trip — `_unflatten_tree` silently drops data at paths of four
segments. -/
theorem c1_counterexample :
    goodEntriesB c1DeepTree = true ∧
      unflatten_tree (dictOfP (flatten_tree c1DeepTree)) ≠ some c1DeepTree := by
  constructor
  · decide
  · decide

theorem c1_roundtrip_depth2_witness :
    goodEntriesB c1Depth3Tree = true ∧ depthE c1Depth3Tree ≤ 2 ∧
      unflatten_tree (dictOfP (flatten_tree c1Depth3Tree)) = some c1Depth3Tree :=
  ⟨by decide, by decide,
    c1_roundtrip_depth2 c1Depth3Tree (by decide) (by decide)⟩

/-! ### C2: input registry deduplication -/


section AssocLemmas

variable {α β : Type} [DecidableEq α]

theorem setKeyL_cons_self {k0 k : α} (h : k0 = k) (v0 v : β) (rest : List (α × β)) :
    setKeyL ((k0, v0) :: rest) k v = (k, v) :: rest := by
  simp [setKeyL, h]

theorem setKeyL_cons_ne {k0 k : α} (h : ¬ k0 = k) (v0 v : β) (rest : List (α × β)) :
    setKeyL ((k0, v0) :: rest) k v = (k0, v0) :: setKeyL rest k v := by
  simp [setKeyL, h]

theorem lookupL_cons_self {k0 k : α} (h : k0 = k) (v0 : β) (rest : List (α × β)) :
    lookupL ((k0, v0) :: rest) k = some v0 := by
  simp [lookupL, h]

theorem lookupL_cons_ne {k0 k : α} (h : ¬ k0 = k) (v0 : β) (rest : List (α × β)) :
    lookupL ((k0, v0) :: rest) k = lookupL rest k := by
  simp [lookupL, h]

theorem hasKeyL_cons {k0 k : α} (v0 : β) (rest : List (α × β)) :
    hasKeyL ((k0, v0) :: rest) k = (decide (k0 = k) || hasKeyL rest k) := rfl

theorem hasKeyL_iff_lookupL {l : List (α × β)} {k : α} :
    hasKeyL l k = true ↔ (lookupL l k).isSome = true := by
  induction l with
  | nil => simp [hasKeyL, lookupL]
  | cons kv rest ih =>
    obtain ⟨k0, v0⟩ := kv
    by_cases h : k0 = k
    · subst h
      simp [hasKeyL_cons, lookupL_cons_self rfl]
    · simp [hasKeyL_cons, lookupL_cons_ne h, h, ih]

theorem lookupL_setKeyL_self {l : List (α × β)} {k : α} {v : β} :
    lookupL (setKeyL l k v) k = some v := by
  induction l with
  | nil => simp [setKeyL, lookupL]
  | cons kv rest ih =>
    obtain ⟨k0, v0⟩ := kv
    by_cases h : k0 = k
    · rw [setKeyL_cons_self h, lookupL_cons_self rfl]
    · rw [setKeyL_cons_ne h, lookupL_cons_ne h, ih]

theorem hasKeyL_setKeyL_self {l : List (α × β)} {k : α} {v : β} :
    hasKeyL (setKeyL l k v) k = true :=
  hasKeyL_iff_lookupL.mpr (by rw [lookupL_setKeyL_self]; rfl)

theorem hasKeyL_setKeyL_of {l : List (α × β)} {k k2 : α} {v : β}
    (h : hasKeyL l k2 = true) : hasKeyL (setKeyL l k v) k2 = true := by
  induction l with
  | nil => simp [hasKeyL] at h
  | cons kv rest ih =>
    obtain ⟨k0, v0⟩ := kv
    rw [hasKeyL_cons, Bool.or_eq_true, decide_eq_true_eq] at h
    by_cases hk : k0 = k
    · rw [setKeyL_cons_self hk, hasKeyL_cons, Bool.or_eq_true, decide_eq_true_eq]
      rcases h with h | h
      · exact Or.inl (hk ▸ h)
      · exact Or.inr h
    · rw [setKeyL_cons_ne hk, hasKeyL_cons, Bool.or_eq_true, decide_eq_true_eq]
      rcases h with h | h
      · exact Or.inl h
      · exact Or.inr (ih h)

theorem keys_setKeyL_mem {l : List (α × β)} {k k2 : α} {v : β} :
    k2 ∈ (setKeyL l k v).map Prod.fst → k2 = k ∨ k2 ∈ l.map Prod.fst := by
  induction l with
  | nil =>
    intro h
    simpa [setKeyL] using h
  | cons kv rest ih =>
    obtain ⟨k0, v0⟩ := kv
    intro h
    by_cases hk : k0 = k
    · rw [setKeyL_cons_self hk, List.map_cons, List.mem_cons] at h
      rcases h with h | h
      · exact Or.inl h
      · exact Or.inr (List.mem_cons_of_mem _ h)
    · rw [setKeyL_cons_ne hk, List.map_cons, List.mem_cons] at h
      rcases h with h | h
      · exact Or.inr (by simp [h])
      · rcases ih h with h | h
        · exact Or.inl h
        · exact Or.inr (List.mem_cons_of_mem _ h)

theorem nodupKeys_setKeyL {l : List (α × β)} {k : α} {v : β}
    (h : (l.map Prod.fst).Nodup) : ((setKeyL l k v).map Prod.fst).Nodup := by
  induction l with
  | nil => simp [setKeyL]
  | cons kv rest ih =>
    obtain ⟨k0, v0⟩ := kv
    rw [List.map_cons, List.nodup_cons] at h
    by_cases hk : k0 = k
    · rw [setKeyL_cons_self hk, List.map_cons, List.nodup_cons]
      exact ⟨hk ▸ h.1, h.2⟩
    · rw [setKeyL_cons_ne hk, List.map_cons, List.nodup_cons]
      refine ⟨fun hm => ?_, ih h.2⟩
      rcases keys_setKeyL_mem hm with hm | hm
      · exact hk hm
      · exact h.1 hm

theorem count_one_of_nodup {l : List (α × β)} {k : α}
    (hnd : (l.map Prod.fst).Nodup) (hk : hasKeyL l k = true) :
    (l.filter (fun e => e.1 = k)).length = 1 := by
  induction l with
  | nil => simp [hasKeyL] at hk
  | cons kv rest ih =>
    obtain ⟨k0, v0⟩ := kv
    rw [List.map_cons, List.nodup_cons] at hnd
    by_cases h : k0 = k
    · subst h
      have hrest : (rest.filter (fun e => e.1 = k0)).length = 0 := by
        rw [List.length_eq_zero, List.filter_eq_nil_iff]
        intro e he hek
        simp only [decide_eq_true_eq] at hek
        have hmem : e.1 ∈ rest.map Prod.fst := List.mem_map_of_mem _ he
        rw [hek] at hmem
        exact hnd.1 hmem
      simp [List.filter_cons, hrest]
    · rw [hasKeyL_cons, Bool.or_eq_true, decide_eq_true_eq] at hk
      rcases hk with hk | hk
      · exact absurd hk h
      · simpa [List.filter_cons, h] using ih hnd.2 hk

end AssocLemmas

section CollectLemmas

theorem collectFold_mono (l : List (String × JValue))
    (acc : List (Option String × JValue)) (k : Option String)
    (h : hasKeyL acc k = true) : hasKeyL (l.foldl collectStep acc) k = true := by
  induction l generalizing acc with
  | nil => exact h
  | cons kv rest ih =>
    rw [List.foldl_cons]
    apply ih
    unfold collectStep
    by_cases hn : kv.2 = .val .null
    · rwa [if_pos hn]
    · rw [if_neg hn]
      exact hasKeyL_setKeyL_of h

theorem collectFold_adds (l : List (String × JValue))
    (acc : List (Option String × JValue)) (p : String) (v : JValue)
    (hm : (p, v) ∈ l) (hn : v ≠ .val .null) :
    hasKeyL (l.foldl collectStep acc) (get_hash v) = true := by
  induction l generalizing acc with
  | nil => simp at hm
  | cons kv rest ih =>
    rw [List.foldl_cons]
    rcases List.mem_cons.mp hm with he | hm2
    · subst he
      apply collectFold_mono
      unfold collectStep
      simp only [if_neg hn]
      exact hasKeyL_setKeyL_self
    · exact ih _ hm2

theorem collectFold_nodup (l : List (String × JValue))
    (acc : List (Option String × JValue))
    (h : (acc.map Prod.fst).Nodup) :
    ((l.foldl collectStep acc).map Prod.fst).Nodup := by
  induction l generalizing acc with
  | nil => exact h
  | cons kv rest ih =>
    rw [List.foldl_cons]
    apply ih
    unfold collectStep
    by_cases hn : kv.2 = .val .null
    · rwa [if_pos hn]
    · rw [if_neg hn]
      exact nodupKeys_setKeyL h

theorem collectOne_mono {acc out : List (Option String × JValue)} {iaz : JValue}
    {k : Option String} (hok : collectOne acc iaz = .ok out)
    (h : hasKeyL acc k = true) : hasKeyL out k = true := by
  cases iaz with
  | dict d =>
    unfold collectOne at hok
    injection hok with hok
    subst hok
    exact collectFold_mono _ _ _ h
  | val a =>
    cases a with
    | null =>
      unfold collectOne at hok
      injection hok with hok
      subst hok
      exact h
    | str s => exact absurd hok (by unfold collectOne; intro hc; exact Except.noConfusion hc)
    | int n => exact absurd hok (by unfold collectOne; intro hc; exact Except.noConfusion hc)

theorem collectOne_nodup {acc out : List (Option String × JValue)} {iaz : JValue}
    (hok : collectOne acc iaz = .ok out)
    (h : (acc.map Prod.fst).Nodup) : (out.map Prod.fst).Nodup := by
  cases iaz with
  | dict d =>
    unfold collectOne at hok
    injection hok with hok
    subst hok
    exact collectFold_nodup _ _ h
  | val a =>
    cases a with
    | null =>
      unfold collectOne at hok
      injection hok with hok
      subst hok
      exact h
    | str s => exact absurd hok (by unfold collectOne; intro hc; exact Except.noConfusion hc)
    | int n => exact absurd hok (by unfold collectOne; intro hc; exact Except.noConfusion hc)

theorem collectGo_mono {paz : List (Int × PList JAtom)} {zs : List Int}
    {acc out : List (Option String × JValue)} {k : Option String}
    (hok : collectRawInputsGo paz acc zs = .ok out)
    (h : hasKeyL acc k = true) : hasKeyL out k = true := by
  induction zs generalizing acc with
  | nil =>
    unfold collectRawInputsGo at hok
    injection hok with hok
    subst hok
    exact h
  | cons z rest ih =>
    unfold collectRawInputsGo at hok
    cases hp : lookupL paz z with
    | none =>
      simp only [hp] at hok
      exact Except.noConfusion hok
    | some params =>
      simp only [hp] at hok
      cases hi : lookupP params "input" with
      | none =>
        simp only [hi] at hok
        exact ih hok h
      | some iaz =>
        simp only [hi] at hok
        cases hc : collectOne acc iaz with
        | error e =>
          simp only [hc] at hok
          exact Except.noConfusion hok
        | ok acc2 =>
          simp only [hc] at hok
          exact ih hok (collectOne_mono hc h)

theorem collectGo_nodup {paz : List (Int × PList JAtom)} {zs : List Int}
    {acc out : List (Option String × JValue)}
    (hok : collectRawInputsGo paz acc zs = .ok out)
    (h : (acc.map Prod.fst).Nodup) : (out.map Prod.fst).Nodup := by
  induction zs generalizing acc with
  | nil =>
    unfold collectRawInputsGo at hok
    injection hok with hok
    subst hok
    exact h
  | cons z rest ih =>
    unfold collectRawInputsGo at hok
    cases hp : lookupL paz z with
    | none =>
      simp only [hp] at hok
      exact Except.noConfusion hok
    | some params =>
      simp only [hp] at hok
      cases hi : lookupP params "input" with
      | none =>
        simp only [hi] at hok
        exact ih hok h
      | some iaz =>
        simp only [hi] at hok
        cases hc : collectOne acc iaz with
        | error e =>
          simp only [hc] at hok
          exact Except.noConfusion hok
        | ok acc2 =>
          simp only [hc] at hok
          exact ih hok (collectOne_nodup hc h)

theorem collectGo_adds {paz : List (Int × PList JAtom)} {zs : List Int}
    {acc out : List (Option String × JValue)} {z : Int} {params : PList JAtom}
    {d : PList JAtom} {p : String} {v : JValue}
    (hz : z ∈ zs) (hp : lookupL paz z = some params)
    (hi : lookupP params "input" = some (.dict d))
    (hm : (p, v) ∈ flatten_tree d) (hn : v ≠ .val .null)
    (hok : collectRawInputsGo paz acc zs = .ok out) :
    hasKeyL out (get_hash v) = true := by
  induction zs generalizing acc with
  | nil => simp at hz
  | cons z0 rest ih =>
    unfold collectRawInputsGo at hok
    by_cases hz0 : z0 = z
    · subst hz0
      simp only [hp, hi] at hok
      cases hc : collectOne acc (.dict d) with
      | error e =>
        simp only [hc] at hok
        exact Except.noConfusion hok
      | ok acc2 =>
        simp only [hc] at hok
        unfold collectOne at hc
        injection hc with hc
        subst hc
        exact collectGo_mono hok (collectFold_adds _ _ p v hm hn)
    · have hz2 : z ∈ rest := by
        rcases List.mem_cons.mp hz with he | hm2
        · exact absurd he.symm hz0
        · exact hm2
      cases hp0 : lookupL paz z0 with
      | none =>
        simp only [hp0] at hok
        exact Except.noConfusion hok
      | some params0 =>
        simp only [hp0] at hok
        cases hi0 : lookupP params0 "input" with
        | none =>
          simp only [hi0] at hok
          exact ih hz2 hok
        | some iaz0 =>
          simp only [hi0] at hok
          cases hc : collectOne acc iaz0 with
          | error e =>
            simp only [hc] at hok
            exact Except.noConfusion hok
          | ok acc2 =>
            simp only [hc] at hok
            exact ih hz2 hok

end CollectLemmas

section MaterializeLemmas

theorem mat_ok_shape {raw : List (Option String × JValue)}
    {reg : List (Option String × Handle)}
    (h : materializeInputs raw = .ok reg) :
    reg = raw.map (fun kv => (kv.1, Handle.mk kv.1 kv.2)) := by
  induction raw generalizing reg with
  | nil =>
    unfold materializeInputs at h
    injection h with h
    subst h
    rfl
  | cons kv rest ih =>
    obtain ⟨k, v⟩ := kv
    unfold materializeInputs at h
    cases v with
    | val a =>
      cases a with
      | str s =>
        cases ht : materializeInputs rest with
        | error e =>
          rw [ht] at h
          exact Except.noConfusion h
        | ok tail =>
          rw [ht] at h
          injection h with h
          subst h
          rw [List.map_cons, ih ht]
      | int n => exact Except.noConfusion h
      | null => exact Except.noConfusion h
    | dict d =>
      cases ht : materializeInputs rest with
      | error e =>
        rw [ht] at h
        exact Except.noConfusion h
      | ok tail =>
        rw [ht] at h
        injection h with h
        subst h
        rw [List.map_cons, ih ht]

theorem lookupL_map_handle {raw : List (Option String × JValue)} {k : Option String} :
    lookupL (raw.map (fun kv => (kv.1, Handle.mk kv.1 kv.2))) k =
      (lookupL raw k).map (fun v => Handle.mk k v) := by
  induction raw with
  | nil => rfl
  | cons kv rest ih =>
    obtain ⟨k0, v0⟩ := kv
    by_cases h : k0 = k
    · subst h
      rw [List.map_cons, lookupL_cons_self rfl, lookupL_cons_self rfl]
      rfl
    · rw [List.map_cons, lookupL_cons_ne h, lookupL_cons_ne h, ih]

theorem keys_map_handle {raw : List (Option String × JValue)} :
    (raw.map (fun kv => (kv.1, Handle.mk kv.1 kv.2))).map Prod.fst =
      raw.map Prod.fst := by
  induction raw with
  | nil => rfl
  | cons kv rest ih => simp [ih]

theorem filter_map_handle {raw : List (Option String × JValue)} {k : Option String} :
    ((raw.map (fun kv => (kv.1, Handle.mk kv.1 kv.2))).filter
      (fun e => e.1 = k)).length = (raw.filter (fun e => e.1 = k)).length := by
  induction raw with
  | nil => rfl
  | cons kv rest ih =>
    obtain ⟨k0, v0⟩ := kv
    by_cases h : k0 = k
    · simp [List.filter_cons, h, ih]
    · simp [List.filter_cons, h, ih]

end MaterializeLemmas

section SnapLemmas

theorem lookupP_setKeyP_self {V : Type} : ∀ (d : PList V) (k : String) (v : PTree V),
    lookupP (setKeyP d k v) k = some v
  | .nil, k, v => by simp [setKeyP, lookupP]
  | .cons k0 v0 rest, k, v => by
    by_cases h : k0 = k
    · subst h
      simp [setKeyP, lookupP]
    · simp [setKeyP, lookupP, h, lookupP_setKeyP_self rest k v]

theorem lookupP_setKeyP_other {V : Type} : ∀ (d : PList V) (k q : String) (v : PTree V),
    q ≠ k → lookupP (setKeyP d k v) q = lookupP d q
  | .nil, k, q, v, h => by
    have hkq : ¬ k = q := fun hc => h hc.symm
    simp [setKeyP, lookupP, hkq]
  | .cons k0 v0 rest, k, q, v, h => by
    by_cases h0 : k0 = k
    · subst h0
      have hkq : ¬ k0 = q := fun hc => h hc.symm
      simp [setKeyP, lookupP, hkq]
    · simp only [setKeyP, if_neg h0]
      by_cases hq : k0 = q
      · simp [lookupP, hq]
      · simp [lookupP, hq, lookupP_setKeyP_other rest k q v h]

theorem snapFold_skip {reg : List (Option String × Handle)}
    {l : List (String × JValue)} {p : String} :
    ∀ {acc out : PList (Option Handle)}, (∀ kv ∈ l, kv.1 ≠ p) →
      snapFold reg acc l = .ok out → lookupP out p = lookupP acc p := by
  induction l with
  | nil =>
    intro acc out _ hok
    unfold snapFold at hok
    injection hok with hok
    subst hok
    rfl
  | cons kv rest ih =>
    intro acc out hne hok
    obtain ⟨k, v⟩ := kv
    have hk : k ≠ p := hne (k, v) (List.mem_cons_self _ _)
    unfold snapFold at hok
    by_cases hn : v = .val .null
    · rw [if_pos hn] at hok
      rw [ih (fun kv2 hm => hne kv2 (List.mem_cons_of_mem _ hm)) hok]
      exact lookupP_setKeyP_other _ _ _ _ (fun hc => hk hc.symm)
    · rw [if_neg hn] at hok
      cases hr : lookupL reg (get_hash v) with
      | none =>
        rw [hr] at hok
        exact Except.noConfusion hok
      | some h =>
        rw [hr] at hok
        rw [ih (fun kv2 hm => hne kv2 (List.mem_cons_of_mem _ hm)) hok]
        exact lookupP_setKeyP_other _ _ _ _ (fun hc => hk hc.symm)

theorem snapFold_mem {reg : List (Option String × Handle)}
    {l : List (String × JValue)} {p : String} {v : JValue} {h : Handle} :
    ∀ {acc out : PList (Option Handle)}, (l.map Prod.fst).Nodup →
      (p, v) ∈ l → v ≠ .val .null → lookupL reg (get_hash v) = some h →
      snapFold reg acc l = .ok out → lookupP out p = some (.val (some h)) := by
  induction l with
  | nil =>
    intro acc out _ hm
    simp at hm
  | cons kv rest ih =>
    intro acc out hnd hm hn hr hok
    obtain ⟨k, w⟩ := kv
    rw [List.map_cons, List.nodup_cons] at hnd
    rcases List.mem_cons.mp hm with he | hm2
    · injection he with he1 he2
      subst he1
      subst he2
      unfold snapFold at hok
      rw [if_neg hn, hr] at hok
      have hskip : ∀ kv2 ∈ rest, kv2.1 ≠ p := by
        intro kv2 hm2 hc
        have h2 := List.mem_map_of_mem Prod.fst hm2
        rw [hc] at h2
        exact hnd.1 h2
      rw [snapFold_skip hskip hok]
      exact lookupP_setKeyP_self _ _ _
    · have hkp : k ≠ p := by
        intro hc
        subst hc
        have h2 := List.mem_map_of_mem Prod.fst hm2
        exact hnd.1 h2
      unfold snapFold at hok
      by_cases hwn : w = .val .null
      · rw [if_pos hwn] at hok
        exact ih hnd.2 hm2 hn hr hok
      · rw [if_neg hwn] at hok
        cases hrw : lookupL reg (get_hash w) with
        | none =>
          rw [hrw] at hok
          exact Except.noConfusion hok
        | some hw =>
          rw [hrw] at hok
          exact ih hnd.2 hm2 hn hr hok

theorem snapFold_total {reg : List (Option String × Handle)}
    {l : List (String × JValue)} :
    ∀ {acc : PList (Option Handle)},
      (∀ kv ∈ l, kv.2 ≠ .val .null → (lookupL reg (get_hash kv.2)).isSome = true) →
      ∃ out, snapFold reg acc l = .ok out := by
  induction l with
  | nil =>
    intro acc _
    exact ⟨acc, rfl⟩
  | cons kv rest ih =>
    intro acc hall
    obtain ⟨k, v⟩ := kv
    unfold snapFold
    by_cases hn : v = .val .null
    · rw [if_pos hn]
      exact ih (fun kv2 hm => hall kv2 (List.mem_cons_of_mem _ hm))
    · rw [if_neg hn]
      have hsome : (lookupL reg (get_hash v)).isSome = true :=
        hall (k, v) (List.mem_cons_self _ _) hn
      cases hr : lookupL reg (get_hash v) with
      | none => rw [hr] at hsome; exact Bool.noConfusion hsome
      | some h => exact ih (fun kv2 hm => hall kv2 (List.mem_cons_of_mem _ hm))

end SnapLemmas

/-- C2 amended: deduplication is guaranteed for declarations with equal
*serialized* identities (equal path strings, or mappings with the same
entries in the same insertion order): if two flattened paths — possibly at
different zoom levels — are bound to non-`None` declarations with
`get_hash v1 = get_hash v2`, the registry holds exactly one entry for that
identity, and the flat per-zoom snapshots map both paths to that same
handle. -/
theorem c2_dedup_by_serialization (paz : List (Int × PList JAtom)) (zooms : List Int)
    (z1 z2 : Int) (params1 params2 d1 d2 : PList JAtom)
    (p1 p2 : String) (v1 v2 : JValue) (reg : List (Option String × Handle))
    (hz1 : z1 ∈ zooms) (hz2 : z2 ∈ zooms)
    (hp1 : lookupL paz z1 = some params1) (hp2 : lookupL paz z2 = some params2)
    (hi1 : lookupP params1 "input" = some (.dict d1))
    (hi2 : lookupP params2 "input" = some (.dict d2))
    (hm1 : (p1, v1) ∈ flatten_tree d1) (hm2 : (p2, v2) ∈ flatten_tree d2)
    (hn1 : v1 ≠ .val .null) (hn2 : v2 ≠ .val .null)
    (hnd1 : ((flatten_tree d1).map Prod.fst).Nodup)
    (hnd2 : ((flatten_tree d2).map Prod.fst).Nodup)
    (hhash : get_hash v1 = get_hash v2)
    (hreg : inputRegistry paz zooms = .ok reg) :
    (reg.filter (fun e => e.1 = get_hash v1)).length = 1 ∧
      ∃ h : Handle, lookupL reg (get_hash v1) = some h ∧
        (∃ f1, snapFold reg .nil (flatten_tree d1) = .ok f1 ∧
          lookupP f1 p1 = some (.val (some h))) ∧
        (∃ f2, snapFold reg .nil (flatten_tree d2) = .ok f2 ∧
          lookupP f2 p2 = some (.val (some h))) := by
  unfold inputRegistry at hreg
  cases hc : collectRawInputs paz zooms with
  | error e =>
    rw [hc] at hreg
    exact Except.noConfusion hreg
  | ok c =>
    rw [hc] at hreg
    unfold collectRawInputs at hc
    have hkey1 : hasKeyL c (get_hash v1) = true := collectGo_adds hz1 hp1 hi1 hm1 hn1 hc
    have hnodc : (c.map Prod.fst).Nodup := collectGo_nodup hc (by simp)
    have hshape := mat_ok_shape hreg
    have hregsome : ∀ (kv : String × JValue), kv.2 ≠ .val .null →
        hasKeyL c (get_hash kv.2) = true →
        (lookupL reg (get_hash kv.2)).isSome = true := by
      intro kv hn hk
      have hcs := hasKeyL_iff_lookupL.mp hk
      rw [hshape, lookupL_map_handle]
      cases hx : lookupL c (get_hash kv.2) with
      | none => rw [hx] at hcs; exact Bool.noConfusion hcs
      | some w => rfl
    have hlookc : (lookupL c (get_hash v1)).isSome = true := hasKeyL_iff_lookupL.mp hkey1
    cases hlc : lookupL c (get_hash v1) with
    | none =>
      rw [hlc] at hlookc
      exact Bool.noConfusion hlookc
    | some vstar =>
      have hlreg : lookupL reg (get_hash v1) = some (Handle.mk (get_hash v1) vstar) := by
        rw [hshape, lookupL_map_handle, hlc]
        rfl
      constructor
      · rw [hshape, filter_map_handle]
        exact count_one_of_nodup hnodc hkey1
      · refine ⟨Handle.mk (get_hash v1) vstar, hlreg, ?_, ?_⟩
        · have htot : ∀ kv ∈ flatten_tree d1, kv.2 ≠ .val .null →
              (lookupL reg (get_hash kv.2)).isSome = true := by
            intro kv hm hn
            exact hregsome kv hn (collectGo_adds hz1 hp1 hi1 hm hn hc)
          obtain ⟨f1, hf1⟩ := snapFold_total htot
          exact ⟨f1, hf1, snapFold_mem hnd1 hm1 hn1 hlreg hf1⟩
        · have htot : ∀ kv ∈ flatten_tree d2, kv.2 ≠ .val .null →
              (lookupL reg (get_hash kv.2)).isSome = true := by
            intro kv hm hn
            exact hregsome kv hn (collectGo_adds hz2 hp2 hi2 hm hn hc)
          obtain ⟨f2, hf2⟩ := snapFold_total htot
          have hlreg2 : lookupL reg (get_hash v2) = some (Handle.mk (get_hash v1) vstar) := by
            rw [← hhash]
            exact hlreg
          exact ⟨f2, hf2, snapFold_mem hnd2 hm2 hn2 hlreg2 hf2⟩

/-- C2 counterexample: the two tree paths `a` and `b` are bound to
declarations that are structurally identical in Python's `==` sense (same
key set, same value at every key — only the insertion order differs), yet
the registry materializes **two** handles, because `get_hash` serializes in
insertion order.  This refutes "exactly one handle per structurally
identical declaration". -/
theorem c2_counterexample :
    (lookupP c2Decl1 "format" = lookupP c2Decl2 "format" ∧
      lookupP c2Decl1 "path" = lookupP c2Decl2 "path" ∧
      keysOfP c2Decl1 = ["format", "path"] ∧ keysOfP c2Decl2 = ["path", "format"]) ∧
    (inputRegistry c2Paz [5]).map List.length = .ok 2 :=
  ⟨by decide, by decide⟩

theorem c2_dedup_by_serialization_witness :
    inputRegistry c2PazDup [5] = .ok c2RegDup ∧
      ((c2RegDup.filter (fun e => e.1 = get_hash (.dict c2Decl1))).length = 1 ∧
        ∃ h : Handle, lookupL c2RegDup (get_hash (.dict c2Decl1)) = some h ∧
          (∃ f1, snapFold c2RegDup .nil (flatten_tree c2TreeDup) = .ok f1 ∧
            lookupP f1 "a" = some (.val (some h))) ∧
          (∃ f2, snapFold c2RegDup .nil (flatten_tree c2TreeDup) = .ok f2 ∧
            lookupP f2 "b" = some (.val (some h)))) :=
  ⟨by decide,
   c2_dedup_by_serialization c2PazDup [5] 5 5 c2ParamsDup c2ParamsDup c2TreeDup c2TreeDup
     "a" "b" (.dict c2Decl1) (.dict c2Decl1) c2RegDup (by decide) (by decide)
     (by decide) (by decide) (by decide) (by decide) (by decide) (by decide)
     (by decide) (by decide) (by decide) (by decide) rfl (by decide)⟩


/-! ### C5: `area_at_zoom(None)` is the union of the per-zoom areas -/

theorem lookupL_setKeyL_ne {α β : Type} [DecidableEq α] :
    ∀ (l : List (α × β)) (k k' : α) (v : β), ¬ (k' = k) →
      lookupL (setKeyL l k v) k' = lookupL l k'
  | [], k, k', v, h => by
    show (if k = k' then some v else lookupL [] k') = lookupL [] k'
    rw [if_neg (fun he => h he.symm)]
  | (k0, w) :: rest, k, k', v, h => by
    show lookupL (if k0 = k then (k, v) :: rest else (k0, w) :: setKeyL rest k v) k' = _
    by_cases h0 : k0 = k
    · subst h0
      rw [if_pos rfl]
      show (if k0 = k' then some v else lookupL rest k') = _
      rw [if_neg (fun he => h he.symm)]
      show _ = (if k0 = k' then some w else lookupL rest k')
      rw [if_neg (fun he => h he.symm)]
    · rw [if_neg h0]
      show (if k0 = k' then some w else lookupL (setKeyL rest k v) k') = _
      show _ = (if k0 = k' then some w else lookupL rest k')
      by_cases h1 : k0 = k'
      · rw [if_pos h1, if_pos h1]
      · rw [if_neg h1, if_neg h1, lookupL_setKeyL_ne rest k k' v h]

theorem pureEqS_refl {G : Type} (s : ConfigState G) : pureEqS s s :=
  ⟨rfl, rfl, rfl, rfl, rfl⟩

theorem pureEqS_trans {G : Type} {s s1 s2 : ConfigState G}
    (h1 : pureEqS s s1) (h2 : pureEqS s1 s2) : pureEqS s s2 :=
  ⟨h2.1.trans h1.1, h2.2.1.trans h1.2.1, h2.2.2.1.trans h1.2.2.1,
    h2.2.2.2.1.trans h1.2.2.2.1, h2.2.2.2.2.trans h1.2.2.2.2⟩

theorem pureAreaZ_congr {G : Type} (ops : GeomOps G) {s s' : ConfigState G}
    (h : pureEqS s s') (z : Int) : pureAreaZ ops s' z = pureAreaZ ops s z := by
  unfold pureAreaZ
  rw [h.1, h.2.2.1, h.2.2.2.1, h.2.2.2.2]

theorem pureAreas_congr {G : Type} (ops : GeomOps G) {s s' : ConfigState G}
    (h : pureEqS s s') : ∀ l, pureAreas ops s' l = pureAreas ops s l
  | [] => rfl
  | z :: rest => by
    unfold pureAreas
    rw [pureAreaZ_congr ops h z, pureAreas_congr ops h rest]

theorem inputBody_congr {G : Type} {s s' : ConfigState G} (h : pureEqS s s') :
    inputBody s' = inputBody s := by
  unfold inputBody
  rw [h.1, h.2.1]

theorem pureFullArea_congr {G : Type} (ops : GeomOps G) {s s' : ConfigState G}
    (h : pureEqS s s') : pureFullArea ops s' = pureFullArea ops s := by
  unfold pureFullArea
  rw [h.2.1, pureAreas_congr ops h]

theorem cacheCoherent_of {G : Type} (ops : GeomOps G) {s s' : ConfigState G}
    (hpe : pureEqS s s')
    (hcA : s'.cache_area_at_zoom = s.cache_area_at_zoom)
    (hcF : s'.cache_full_process_area = s.cache_full_process_area)
    (hI : ∀ r, s'.input_cache = some r → inputBody s' = .ok r)
    (h : cacheCoherent ops s) : cacheCoherent ops s' := by
  refine ⟨fun z g hz => ?_, fun g hg => ?_, hI⟩
  · rw [pureAreaZ_congr ops hpe]
    exact h.1 z g (by rw [← hcA]; exact hz)
  · rw [pureFullArea_congr ops hpe]
    exact h.2.1 g (by rw [← hcF]; exact hg)

theorem inputOp_fst {G : Type} (s : ConfigState G) : (inputOp s).1 = inputsOfS s := by
  unfold inputOp inputsOfS
  cases s.input_cache with
  | some r => rfl
  | none =>
    cases inputBody s with
    | ok r => rfl
    | error e => rfl

theorem inputOp_snd {G : Type} (s : ConfigState G) :
    (inputOp s).2 = s ∨
      ∃ r, s.input_cache = none ∧ inputBody s = .ok r ∧
        (inputOp s).2 = { s with input_cache := some r } := by
  unfold inputOp
  cases hin : s.input_cache with
  | some r => exact Or.inl rfl
  | none =>
    cases hb : inputBody s with
    | error e => exact Or.inl rfl
    | ok r => exact Or.inr ⟨r, rfl, rfl, rfl⟩

theorem inputOp_pureEq {G : Type} (s : ConfigState G) : pureEqS s (inputOp s).2 := by
  rcases inputOp_snd s with h | ⟨r, hin, hb, h⟩
  · rw [h]
    exact pureEqS_refl s
  · rw [h]
    refine ⟨rfl, rfl, rfl, rfl, ?_⟩
    show inputsOfS { s with input_cache := some r } = inputsOfS s
    unfold inputsOfS
    rw [hin]
    show Except.ok r = inputBody s
    rw [hb]

theorem inputOp_coherent {G : Type} (ops : GeomOps G) (s : ConfigState G)
    (h : cacheCoherent ops s) : cacheCoherent ops (inputOp s).2 := by
  rcases inputOp_snd s with heq | ⟨r, hin, hb, heq⟩
  · rw [heq]
    exact h
  · have hpe2 : pureEqS s ({ s with input_cache := some r } : ConfigState G) := by
      rw [← heq]
      exact inputOp_pureEq s
    rw [heq]
    refine cacheCoherent_of ops hpe2 rfl rfl ?_ h
    · intro r2 hr2
      injection hr2 with hr2
      subst hr2
      show inputBody { s with input_cache := some r } = Except.ok r
      rw [show inputBody { s with input_cache := some r } = inputBody s from rfl, hb]

theorem cacheCoherent_addArea {G : Type} (ops : GeomOps G) {s : ConfigState G}
    {z : Int} {g : G} (h : cacheCoherent ops s) (hz : pureAreaZ ops s z = .ok g) :
    cacheCoherent ops
      { s with cache_area_at_zoom := setKeyL s.cache_area_at_zoom z g } := by
  have hpe : pureEqS s
      ({ s with cache_area_at_zoom := setKeyL s.cache_area_at_zoom z g } :
        ConfigState G) := ⟨rfl, rfl, rfl, rfl, rfl⟩
  refine ⟨fun z' g' hz' => ?_, fun g' hg' => ?_, fun r hr => ?_⟩
  · rw [pureAreaZ_congr ops hpe]
    by_cases he : z' = z
    · subst he
      rw [show ({ s with cache_area_at_zoom := setKeyL s.cache_area_at_zoom z' g } :
          ConfigState G).cache_area_at_zoom = setKeyL s.cache_area_at_zoom z' g from rfl,
        lookupL_setKeyL_self] at hz'
      injection hz' with hz'
      rw [← hz']
      exact hz
    · rw [show ({ s with cache_area_at_zoom := setKeyL s.cache_area_at_zoom z g } :
          ConfigState G).cache_area_at_zoom = setKeyL s.cache_area_at_zoom z g from rfl,
        lookupL_setKeyL_ne _ _ _ _ he] at hz'
      exact h.1 z' g' hz'
  · rw [pureFullArea_congr ops hpe]
    exact h.2.1 g' hg'
  · rw [inputBody_congr hpe]
    exact h.2.2 r hr

theorem areaZOp_fst {G : Type} (ops : GeomOps G) (z : Int) (s : ConfigState G)
    (h : cacheCoherent ops s) : (areaZOp ops z s).1 = pureAreaZ ops s z := by
  unfold areaZOp
  split
  · next g hc => exact (h.1 z g hc).symm
  · next hc =>
    unfold pureAreaZ
    split
    · rfl
    · next params hp =>
      split
      · rfl
      · next d hi =>
        split
        · next e s1 hio =>
          rw [← inputOp_fst s, hio]
        · next reg s1 hio =>
          rw [← inputOp_fst s, hio]
          have hpe : pureEqS s s1 := by
            have := inputOp_pureEq s
            rw [hio] at this
            exact this
          rw [hpe.2.2.2.1]
          show _ = (match gatherBBoxes s.bboxF reg d with
            | .error e => Except.error e
            | .ok gs =>
              Except.ok (ops.inter (ops.unionList gs) (ops.boxOf s.init_bounds)))
          cases hg : gatherBBoxes s.bboxF reg d with
          | error e => rfl
          | ok gs =>
            rw [hpe.2.2.1]
      · rfl

theorem areaZOp_pureEq {G : Type} (ops : GeomOps G) (z : Int) (s : ConfigState G) :
    pureEqS s (areaZOp ops z s).2 := by
  unfold areaZOp
  split
  · exact pureEqS_refl s
  · split
    · exact pureEqS_refl s
    · next params hp =>
      split
      · exact ⟨rfl, rfl, rfl, rfl, rfl⟩
      · next d hi =>
        split
        · next e s1 hio =>
          have := inputOp_pureEq s
          rw [hio] at this
          exact this
        · next reg s1 hio =>
          have hpe : pureEqS s s1 := by
            have := inputOp_pureEq s
            rw [hio] at this
            exact this
          cases hg : gatherBBoxes s1.bboxF reg d with
          | error e => exact hpe
          | ok gs => exact pureEqS_trans hpe ⟨rfl, rfl, rfl, rfl, rfl⟩
      · exact pureEqS_refl s

theorem areaZOp_coherent {G : Type} (ops : GeomOps G) (z : Int) (s : ConfigState G)
    (h : cacheCoherent ops s) : cacheCoherent ops (areaZOp ops z s).2 := by
  unfold areaZOp
  split
  · exact h
  · next hc =>
    split
    · exact h
    · next params hp =>
      split
      · next hi =>
        have hz : pureAreaZ ops s z = .ok (ops.boxOf s.init_bounds) := by
          simp only [pureAreaZ, hp, hi]
        exact cacheCoherent_addArea ops h hz
      · next d hi =>
        split
        · next e s1 hio =>
          have := inputOp_coherent ops s h
          rw [hio] at this
          exact this
        · next reg s1 hio =>
          have hpe : pureEqS s s1 := by
            have := inputOp_pureEq s
            rw [hio] at this
            exact this
          have hco1 : cacheCoherent ops s1 := by
            have := inputOp_coherent ops s h
            rw [hio] at this
            exact this
          have hin1 : inputsOfS s1 = .ok reg := by
            rw [hpe.2.2.2.2, ← inputOp_fst s, hio]
          cases hg : gatherBBoxes s1.bboxF reg d with
          | error e => exact hco1
          | ok gs =>
            have hz1 : pureAreaZ ops s1 z =
                .ok (ops.inter (ops.unionList gs) (ops.boxOf s1.init_bounds)) := by
              simp only [pureAreaZ, hpe.1, hp, hi, hin1, hg]
            exact cacheCoherent_addArea ops hco1 hz1
      · exact h

theorem mapAreas_spec {G : Type} (ops : GeomOps G) :
    ∀ (l : List Int) (s : ConfigState G), cacheCoherent ops s →
      (mapAreas ops l s).1 = pureAreas ops s l ∧
        pureEqS s (mapAreas ops l s).2 ∧ cacheCoherent ops (mapAreas ops l s).2
  | [], s, h => ⟨rfl, pureEqS_refl s, h⟩
  | z :: rest, s, h => by
    have hA' := areaZOp_fst ops z s h
    rcases hA : areaZOp ops z s with ⟨res, s1⟩
    rw [hA] at hA'
    have hfst : res = pureAreaZ ops s z := hA'
    have hpe1 : pureEqS s s1 := by
      have := areaZOp_pureEq ops z s
      rw [hA] at this
      exact this
    have hco1 : cacheCoherent ops s1 := by
      have := areaZOp_coherent ops z s h
      rw [hA] at this
      exact this
    cases res with
    | error e =>
      have hstep : mapAreas ops (z :: rest) s = (Except.error e, s1) := by
        unfold mapAreas
        rw [hA]
      have hpstep : pureAreas ops s (z :: rest) = .error e := by
        unfold pureAreas
        rw [← hfst]
      rw [hstep, hpstep]
      exact ⟨rfl, hpe1, hco1⟩
    | ok g =>
      have ih := mapAreas_spec ops rest s1 hco1
      rcases hM : mapAreas ops rest s1 with ⟨res2, s2⟩
      rw [hM] at ih
      have hpureR : pureAreas ops s1 rest = pureAreas ops s rest :=
        pureAreas_congr ops hpe1 rest
      have hres2 : res2 = pureAreas ops s rest := by
        rw [← hpureR, ← ih.1]
      have hstep : mapAreas ops (z :: rest) s =
          (match (res2, s2) with
            | (Except.error e, s2) => (Except.error e, s2)
            | (Except.ok gs, s2) => (Except.ok (g :: gs), s2)) := by
        unfold mapAreas
        rw [hA]
        show (match mapAreas ops rest s1 with
          | (Except.error e, s2) => (Except.error e, s2)
          | (Except.ok gs, s2) => (Except.ok (g :: gs), s2)) = _
        rw [hM]
      have hpstep : pureAreas ops s (z :: rest) =
          (match pureAreas ops s rest with
            | Except.error e => Except.error e
            | Except.ok gs => Except.ok (g :: gs)) := by
        conv_lhs => unfold pureAreas
        rw [← hfst]
      rw [hstep, hpstep, ← hres2]
      cases res2 with
      | error e => exact ⟨rfl, pureEqS_trans hpe1 ih.2.1, ih.2.2⟩
      | ok gs => exact ⟨rfl, pureEqS_trans hpe1 ih.2.1, ih.2.2⟩

theorem pureAreas_length {G : Type} (ops : GeomOps G) :
    ∀ (l : List Int) (s : ConfigState G) (gs : List G),
      pureAreas ops s l = .ok gs → gs.length = l.length
  | [], s, gs, h => by
    injection h with h
    rw [← h]
    rfl
  | z :: rest, s, gs, h => by
    unfold pureAreas at h
    cases hz : pureAreaZ ops s z with
    | error e =>
      simp only [hz] at h
      exact Except.noConfusion h
    | ok g =>
      simp only [hz] at h
      cases hr : pureAreas ops s rest with
      | error e =>
        simp only [hr] at h
        exact Except.noConfusion h
      | ok gs2 =>
        simp only [hr] at h
        injection h with h
        rw [← h, List.length_cons, List.length_cons,
          pureAreas_length ops rest s gs2 hr]

theorem pureAreas_zip {G : Type} (ops : GeomOps G) :
    ∀ (l : List Int) (s : ConfigState G) (gs : List G),
      pureAreas ops s l = .ok gs →
      ∀ zg ∈ List.zip l gs, pureAreaZ ops s zg.1 = .ok zg.2
  | [], s, gs, h, zg, hm => by
    injection h with h
    rw [← h] at hm
    exact absurd hm (List.not_mem_nil _)
  | z :: rest, s, gs, h, zg, hm => by
    unfold pureAreas at h
    cases hz : pureAreaZ ops s z with
    | error e =>
      simp only [hz] at h
      exact Except.noConfusion h
    | ok g =>
      simp only [hz] at h
      cases hr : pureAreas ops s rest with
      | error e =>
        simp only [hr] at h
        exact Except.noConfusion h
      | ok gs2 =>
        simp only [hr] at h
        injection h with h
        rw [← h, List.zip_cons_cons] at hm
        rcases List.mem_cons.mp hm with he | hm2
        · rw [he]
          exact hz
        · exact pureAreas_zip ops rest s gs2 hr zg hm2

/-- C5: `area_at_zoom(None)` is the geometric union of the per-zoom areas
over the initialized zoom levels, and an empty initialized range yields the
empty geometry rather than an error. -/
theorem c5_area_none_is_union {G : Type} (ops : GeomOps G) (s : ConfigState G)
    (gs : List G) (hcoh : cacheCoherent ops s)
    (hgs : pureAreas ops s s.init_zoom_levels = .ok gs) :
    (area_at_zoomOp ops none s).1 = .ok (ops.unionList gs) ∧
    gs.length = s.init_zoom_levels.length ∧
    (∀ zg ∈ List.zip s.init_zoom_levels gs,
      (area_at_zoomOp ops (some zg.1) s).1 = .ok zg.2) ∧
    (s.init_zoom_levels = [] → (area_at_zoomOp ops none s).1 = .ok ops.emptyG) := by
  have hspec := (mapAreas_spec ops s.init_zoom_levels s hcoh).1
  have part1 : (area_at_zoomOp ops none s).1 = .ok (ops.unionList gs) := by
    simp only [area_at_zoomOp]
    split
    · next g hcf =>
      split
      · next hemp =>
        split
        · next e s1 hM =>
          rw [hM] at hspec
          have : Except.error e = Except.ok gs := hspec.trans hgs
          exact Except.noConfusion this
        · next gs2 s1 hM =>
          rw [hM] at hspec
          have h2 : Except.ok gs2 = Except.ok gs := hspec.trans hgs
          injection h2 with h2
          rw [h2, ops.buffer0_id]
      · next hemp =>
        have hfull := hcoh.2.1 g hcf
        unfold pureFullArea at hfull
        simp only [hgs] at hfull
        injection hfull with hfull
        show Except.ok g = _
        rw [← hfull, ops.buffer0_id]
    · next hcf =>
      split
      · next e s1 hM =>
        rw [hM] at hspec
        have : Except.error e = Except.ok gs := hspec.trans hgs
        exact Except.noConfusion this
      · next gs2 s1 hM =>
        rw [hM] at hspec
        have h2 : Except.ok gs2 = Except.ok gs := hspec.trans hgs
        injection h2 with h2
        rw [h2, ops.buffer0_id]
  refine ⟨part1, pureAreas_length ops _ s gs hgs, fun zg hm => ?_, fun h0 => ?_⟩
  · have hz : zg.1 ∈ s.init_zoom_levels := (List.of_mem_zip hm).1
    simp only [area_at_zoomOp]
    rw [if_pos hz, areaZOp_fst ops zg.1 s hcoh]
    exact pureAreas_zip ops _ s gs hgs zg hm
  · have hgs0 : gs = [] := by
      rw [h0] at hgs
      have : Except.ok ([] : List G) = Except.ok gs := hgs
      injection this with h2
      rw [← h2]
    rw [part1, hgs0, ops.union_nil]

theorem c5_area_none_is_union_witness :
    cacheCoherent unitOps c5State ∧
    pureAreas unitOps c5State c5State.init_zoom_levels = .ok [()] ∧
    ((area_at_zoomOp unitOps none c5State).1 = .ok (unitOps.unionList [()]) ∧
      [()].length = c5State.init_zoom_levels.length ∧
      (∀ zg ∈ List.zip c5State.init_zoom_levels [()],
        (area_at_zoomOp unitOps (some zg.1) c5State).1 = .ok zg.2) ∧
      (c5State.init_zoom_levels = [] →
        (area_at_zoomOp unitOps none c5State).1 = .ok unitOps.emptyG)) :=
  ⟨⟨fun _ _ h => Option.noConfusion h, fun _ h => Option.noConfusion h,
      fun _ h => Option.noConfusion h⟩, rfl,
    c5_area_none_is_union unitOps c5State [()]
      ⟨fun _ _ h => Option.noConfusion h, fun _ h => Option.noConfusion h,
        fun _ h => Option.noConfusion h⟩ rfl⟩

theorem inputOp_raw {G : Type} (s : ConfigState G) : (inputOp s).2.raw = s.raw := by
  rcases inputOp_snd s with h | ⟨r, _, _, h⟩ <;> rw [h]

theorem areaZOp_raw {G : Type} (ops : GeomOps G) (z : Int) (s : ConfigState G) :
    (areaZOp ops z s).2.raw = s.raw := by
  unfold areaZOp
  split
  · rfl
  · split
    · rfl
    · next params hp =>
      split
      · rfl
      · next d hi =>
        split
        · next e s1 hio =>
          show s1.raw = s.raw
          rw [← inputOp_raw s, hio]
        · next reg s1 hio =>
          cases hg : gatherBBoxes s1.bboxF reg d with
          | error e =>
            show s1.raw = s.raw
            rw [← inputOp_raw s, hio]
          | ok gs =>
            show s1.raw = s.raw
            rw [← inputOp_raw s, hio]
      · rfl

theorem mapAreas_raw {G : Type} (ops : GeomOps G) :
    ∀ (l : List Int) (s : ConfigState G), (mapAreas ops l s).2.raw = s.raw
  | [], _ => rfl
  | z :: rest, s => by
    rcases hA : areaZOp ops z s with ⟨res, s1⟩
    have h1 : s1.raw = s.raw := by
      rw [← areaZOp_raw ops z s, hA]
    unfold mapAreas
    rw [hA]
    cases res with
    | error e => exact h1
    | ok g =>
      show (match mapAreas ops rest s1 with
        | (Except.error e, s2) => (Except.error e, s2)
        | (Except.ok gs, s2) => (Except.ok (g :: gs), s2)).2.raw = s.raw
      rcases hM : mapAreas ops rest s1 with ⟨res2, s2⟩
      have h2 : s2.raw = s1.raw := by
        rw [← mapAreas_raw ops rest s1, hM]
      cases res2 with
      | error e => exact h2.trans h1
      | ok gs => exact h2.trans h1

theorem area_at_zoomOp_raw {G : Type} (ops : GeomOps G) (arg : Option Int)
    (s : ConfigState G) : (area_at_zoomOp ops arg s).2.raw = s.raw := by
  cases arg with
  | some z =>
    simp only [area_at_zoomOp]
    split
    · exact areaZOp_raw ops z s
    · rfl
  | none =>
    simp only [area_at_zoomOp]
    split
    · next g hcf =>
      split
      · next hemp =>
        split
        · next e s1 hM =>
          show s1.raw = s.raw
          rw [← mapAreas_raw ops s.init_zoom_levels s, hM]
        · next gs s1 hM =>
          show s1.raw = s.raw
          rw [← mapAreas_raw ops s.init_zoom_levels s, hM]
      · rfl
    · next hcf =>
      split
      · next e s1 hM =>
        show s1.raw = s.raw
        rw [← mapAreas_raw ops s.init_zoom_levels s, hM]
      · next gs s1 hM =>
        show s1.raw = s.raw
        rw [← mapAreas_raw ops s.init_zoom_levels s, hM]

theorem bounds_at_zoomOp_raw {G : Type} (ops : GeomOps G) (arg : Option Int)
    (s : ConfigState G) : (bounds_at_zoomOp ops arg s).2.raw = s.raw := by
  unfold bounds_at_zoomOp
  rcases hA : area_at_zoomOp ops arg s with ⟨res, s1⟩
  have h1 : s1.raw = s.raw := by
    rw [← area_at_zoomOp_raw ops arg s, hA]
  cases res with
  | error e => exact h1
  | ok g =>
    show (if ops.isEmptyG g then ((Except.ok none : Except PyErr (Option BoundsT)), s1)
      else
        match area_at_zoomOp ops arg s1 with
        | (Except.error e, s2) => (Except.error e, s2)
        | (Except.ok g2, s2) => (Except.ok (some (ops.envelopeOf g2)), s2)).2.raw = s.raw
    split
    · exact h1
    · rcases hA2 : area_at_zoomOp ops arg s1 with ⟨res2, s2⟩
      have h2 : s2.raw = s1.raw := by
        rw [← area_at_zoomOp_raw ops arg s1, hA2]
      cases res2 with
      | error e => exact h2.trans h1
      | ok g2 => exact h2.trans h1

theorem baselevelsOp_raw {G : Type} (s : ConfigState G) :
    (baselevelsOp s).2.raw = s.raw := by
  simp only [baselevelsOp]
  split
  · rfl
  · split
    · rfl
    · rfl
    · split
      · rfl
      · split
        · split
          · rfl
          · rfl
        · rfl

theorem params_at_zoomOp_raw {G : Type} (z : Int) (s : ConfigState G) :
    (params_at_zoomOp z s).2.raw = s.raw := by
  unfold params_at_zoomOp
  split
  · split
    · rfl
    · next params hp =>
      split
      · rfl
      · next d hi =>
        split
        · next e s1 hio =>
          show s1.raw = s.raw
          rw [← inputOp_raw s, hio]
        · next reg s1 hio =>
          have h1 : s1.raw = s.raw := by
            rw [← inputOp_raw s, hio]
          split
          · exact h1
          · split
            · exact h1
            · exact h1
      · rfl
  · rfl

theorem outputOp_raw_of_cached {G : Type} (s : ConfigState G)
    (h : s.output_cache.isSome = true) : (outputOp s).2.raw = s.raw := by
  unfold outputOp
  cases hc : s.output_cache with
  | some w => rfl
  | none =>
    rw [hc] at h
    exact Bool.noConfusion h

/-! ### C7: the raw document is never mutated after construction -/

/-- C7: on a constructed configuration (output and input caches populated by
`__init__` steps (6) and (7)), none of the public operations changes the
raw document. -/
theorem c7_raw_never_mutated {G : Type} (ops : GeomOps G) (s : ConfigState G)
    (z : Int) (zq : Option Int) (hc : Constructed s) :
    (outputOp s).2.raw = s.raw ∧
    (inputOp s).2.raw = s.raw ∧
    (baselevelsOp s).2.raw = s.raw ∧
    (params_at_zoomOp z s).2.raw = s.raw ∧
    (area_at_zoomOp ops zq s).2.raw = s.raw ∧
    (bounds_at_zoomOp ops zq s).2.raw = s.raw :=
  ⟨outputOp_raw_of_cached s hc.1, inputOp_raw s, baselevelsOp_raw s,
    params_at_zoomOp_raw z s, area_at_zoomOp_raw ops zq s,
    bounds_at_zoomOp_raw ops zq s⟩

theorem c7_raw_never_mutated_witness :
    Constructed c7State ∧
    ((outputOp c7State).2.raw = c7State.raw ∧
      (inputOp c7State).2.raw = c7State.raw ∧
      (baselevelsOp c7State).2.raw = c7State.raw ∧
      (params_at_zoomOp 5 c7State).2.raw = c7State.raw ∧
      (area_at_zoomOp unitOps none c7State).2.raw = c7State.raw ∧
      (bounds_at_zoomOp unitOps none c7State).2.raw = c7State.raw) :=
  ⟨⟨rfl, rfl⟩, c7_raw_never_mutated unitOps c7State 5 none ⟨rfl, rfl⟩⟩
